
import Mathlib

/-!
Verification of the bit-level netlist reconstruction engine of OpenNetlistView
(`src/yosys/parser.cpp`, `path.cpp`, `port.cpp`, `module.cpp`, `netname.cpp`).

The C++ code is shallowly embedded: `QString` bits become `String`, `QStringList`
becomes `List String`, `QList`/`std::vector` become `List`, `std::map` becomes an
association list (with sorted iteration modelled where the code iterates a map),
shared-pointer mutation becomes explicit state passing, and exceptions become
`Except String`.  Pointer back-references (`Port::path`, `Port::parentNode`) are
cyclic and are not represented; no verified property depends on them.
-/

namespace ONV

/-! ### Decimal strings: models of `QString::number` and `QString::toULong` -/

/-- Fuel-driven digit extraction (the fuel pattern keeps the definition
structurally recursive, like core's `Nat.toDigits`). -/
def decDigitsAux : Nat → Nat → List Char
  | 0, _ => []
  | fuel + 1, n =>
    if n < 10 then [Nat.digitChar n]
    else decDigitsAux fuel (n / 10) ++ [Nat.digitChar (n % 10)]

/-- Decimal digit characters of a natural number, most significant first.
Model of the digit sequence produced by `QString::number`. -/
def decDigits (n : Nat) : List Char :=
  decDigitsAux (n + 1) n

/-- Model of `QString::number` for unsigned integers (decimal rendering). -/
def natToDecStr (n : Nat) : String :=
  String.mk (decDigits n)

/-- Numeric value of one decimal digit character. -/
def digitVal (c : Char) : Nat := c.toNat - 48

/-- Accumulating decimal parse of a character list. -/
def parseDecDigits (l : List Char) : Nat :=
  l.foldl (fun a c => a * 10 + digitVal c) 0

/-- `2^64`: the modulus of `unsigned long long` / `uint64_t`, the type of the
materializer's counter (parser.cpp:599) and of `Port::getMaxBitNumber`
(port.h:249); also the range of `QString::toULong` on the targeted (LP64)
platforms. -/
def u64Mod : Nat := 18446744073709551616

/-- `2^32`: the range of `QString::toUInt` (`unsigned int`), used by
`Port::setConstPortValue` (port.cpp:154). -/
def u32Mod : Nat := 4294967296

/-- `QChar::isSpace`, by code point: ASCII whitespace `\t`..`\r` and space,
NEL (U+0085), NBSP (U+00A0), and the Unicode separator categories Zs
(U+1680, U+2000..U+200A, U+202F, U+205F, U+3000), Zl (U+2028), Zp (U+2029). -/
def qtIsSpace (c : Char) : Bool :=
  decide ((9 ≤ c.toNat ∧ c.toNat ≤ 13) ∨ c.toNat = 32 ∨ c.toNat = 133 ∨
    c.toNat = 160 ∨ c.toNat = 5760 ∨ (8192 ≤ c.toNat ∧ c.toNat ≤ 8202) ∨
    c.toNat = 8232 ∨ c.toNat = 8233 ∨ c.toNat = 8239 ∨ c.toNat = 8287 ∨
    c.toNat = 12288)

/-- Leading/trailing whitespace removal, as Qt's number parsing applies via
`QStringView::trimmed`. -/
def qtTrimSpaces (l : List Char) : List Char :=
  ((l.dropWhile qtIsSpace).reverse.dropWhile qtIsSpace).reverse

/-- The digit list a Qt unsigned decimal parse works on: whitespace is
trimmed and one leading `'+'` is accepted.  A `'-'` (rejected by Qt for
unsigned targets) is simply left in place, making the digit test below fail. -/
def qtNumTrim (l : List Char) : List Char :=
  if (qtTrimSpaces l).headD 'x' = '+' then (qtTrimSpaces l).tail
  else qtTrimSpaces l

/-- The unbounded decimal value of a string under Qt unsigned parsing, or
`none` when the trimmed unsigned form is not a nonempty digit string. -/
def qtDecimalVal (s : String) : Option Nat :=
  if qtNumTrim s.data ≠ [] ∧ (qtNumTrim s.data).all Char.isDigit
  then some (parseDecDigits (qtNumTrim s.data)) else none

/-- Model of `QString::toULong` (64-bit on the targeted platforms): the
parsed decimal value when it fits the 64-bit range, else `0` (Qt returns `0`
with `ok = false` on parse failure AND on overflow).  The out-of-range
default `u64Mod` makes the range test fail exactly on parse failure. -/
def qtToULong (s : String) : Nat :=
  if (qtDecimalVal s).getD u64Mod < u64Mod then (qtDecimalVal s).getD u64Mod
  else 0

/-- Model of `QString::toUInt`: as `toULong` with the 32-bit range. -/
def qtToUInt (s : String) : Nat :=
  if (qtDecimalVal s).getD u32Mod < u32Mod then (qtDecimalVal s).getD u32Mod
  else 0

/-! ### Bit classification (`parser.cpp` / `port.cpp` / `path.cpp`) -/

/-- A bit identifier is "constant" when it is the literal `"0"` or `"1"`
(`parser.cpp:441,446`). -/
def isConstBit (b : String) : Bool := b == "0" || b == "1"

/-- A bit-sequence contains a no-connect marker (`"x"` bit);
`Port::hasNoConnectBitsConnection` / `Path::hasNoConnectBitsConnection`. -/
def hasNoConnectBits (bits : List String) : Bool := bits.any (fun b => b == "x")

/-- A bit-sequence contains a constant bit; `Port::hasConstantBits`. -/
def hasConstBitsIn (bits : List String) : Bool := bits.any isConstBit

/-! ### Bit segmentation (`Parser::splitBits`, parser.cpp:430-468) -/

/-- Loop body of `Parser::splitBits`: scans `rest`, growing the current run
`cur` (starting at index `start`), emitting the run whenever the
constant-vs-net classification changes, and emitting the final run at the end.
The emitted index ranges are inclusive, exactly as the C++ builds the
`std::map<std::tuple<uint64_t,uint64_t>, QStringList>` keys; since the start
indices strictly increase, insertion order coincides with the map's sorted
iteration order. -/
def splitBitsLoop : List String → List String → Nat → Bool →
    List ((Nat × Nat) × List String)
  | [], cur, start, _ =>
    if cur.isEmpty then [] else [((start, start + cur.length - 1), cur)]
  | b :: rest, cur, start, lastWasConst =>
    if cur.isEmpty || (isConstBit b == lastWasConst) then
      splitBitsLoop rest (cur ++ [b]) start (isConstBit b)
    else
      ((start, start + cur.length - 1), cur) ::
        splitBitsLoop rest [b] (start + cur.length) (isConstBit b)

/-- `Parser::splitBits`: segments a bit-sequence into maximal runs of equal
constant-vs-net classification, keyed by inclusive index range. -/
def splitBits (bits : List String) : List ((Nat × Nat) × List String) :=
  match bits with
  | [] => []
  | b :: _ => splitBitsLoop bits [] 0 (isConstBit b)

/-- Runs invariant: `RunsFrom start runs` says the runs occupy consecutive
inclusive ranges beginning at `start`, each run is nonempty and homogeneous in
classification, and adjacent runs have different classifications. -/
def RunsFrom : Nat → List ((Nat × Nat) × List String) → Prop
  | _, [] => True
  | start, ((s, e), r) :: rest =>
    s = start ∧ r ≠ [] ∧ e = start + r.length - 1 ∧
    (∀ b ∈ r, isConstBit b = isConstBit (r.headD "")) ∧
    RunsFrom (start + r.length) rest ∧
    (match rest with
     | [] => True
     | ((_, _), r') :: _ => isConstBit (r'.headD "") ≠ isConstBit (r.headD ""))

/-! ### Data model (`port.h/cpp`, `netname.h/cpp`, `path.h/cpp`, `node.h/cpp`,
`module.h/cpp`).  `Port::path` and `Port::parentNode` are cyclic back-pointers
and are omitted; no verified property reads them. -/

/-- `Port::EDirection`. -/
inductive EDirection
  | INPUT
  | OUTPUT
  | CONST
deriving DecidableEq, Inhabited

/-- `Port`: name, direction, bit-sequence, and the retained constant value set
by `Port::setConstPortValue`. -/
structure Port where
  name : String
  direction : EDirection
  bits : List String
  constValue : Nat
deriving DecidableEq, Inhabited

/-- `Netname`: user-declared alias for a bit-sequence. -/
structure Netname where
  name : String
  bits : List String
  isHidden : Bool
  alternativeNetnames : List String
deriving DecidableEq, Inhabited

/-- `Path`: reconstructed wire with one optional driver and a list of consumer
ports (`sigDestinations`). -/
structure Path where
  name : String
  width : Nat
  bits : List String
  hiddenName : Bool
  sigSource : Option Port
  sigDestinations : List Port
  alternativeNames : List String
deriving DecidableEq, Inhabited

/-- `Node`: named cell with a type tag and owned ports. -/
structure Node where
  name : String
  type : String
  ports : List Port
deriving DecidableEq, Inhabited

/-- `Module`: owns boundary ports, nodes, paths and netnames. -/
structure Module where
  type : String
  ports : List Port
  nodes : List Node
  paths : List Path
  netnames : List Netname
deriving DecidableEq, Inhabited

/-- `Port::hasConstantBits`. -/
def Port.hasConstantBits (p : Port) : Bool := p.bits.any isConstBit

/-- `Port::hasNoConnectBitsConnection`. -/
def Port.hasNoConnectBitsConnection (p : Port) : Bool := hasNoConnectBits p.bits

/-- `Port::getMaxBitNumber`: maximum Qt-numeric value over the bits that are
not `"x"`, `"0"` or `"1"`. -/
def Port.getMaxBitNumber (p : Port) : Nat :=
  p.bits.foldl
    (fun m b => if b = "x" ∨ b = "0" ∨ b = "1" then m else max m (qtToULong b)) 0

/-- `Port::setConstPortValue(QStringList)` (port.cpp:146-158): fold over the
bits in reverse, shifting each bit's `toUInt` value into a `uint64_t`
accumulator (the shift wraps mod `2^64`). -/
def Port.setConstPortValue (p : Port) (bits : List String) : Port :=
  { p with constValue :=
      bits.reverse.foldl (fun a b => ((a <<< 1) % u64Mod) ||| qtToUInt b) 0 }

/-- Body of `Port::replaceBits`: for `i` in `s..e` set `bits[i] := nw[i - s]`. -/
def replaceBitsRange (bits : List String) (s e : Nat) (nw : List String) : List String :=
  (List.range (e + 1 - s)).foldl (fun acc i => acc.set (s + i) (nw.getD i "")) bits

/-- `Port::replaceBits`. -/
def Port.replaceBits (p : Port) (pos : Nat × Nat) (nw : List String) : Port :=
  { p with bits := replaceBitsRange p.bits pos.1 pos.2 nw }

/-- `Parser::createConstantPort`. -/
def createConstantPort (name : String) (bits : List String) (constValue : List String) :
    Port :=
  (Port.mk name EDirection.CONST bits 0).setConstPortValue constValue

/-- `Path::hasNoConnectBitsConnection`. -/
def Path.hasNoConnectBitsConnection (p : Path) : Bool := hasNoConnectBits p.bits

/-- `Path::hasConnection` (path.cpp:132-136): a driver AND at least one
consumer, or a no-connect bit. -/
def Path.hasConnection (p : Path) : Bool :=
  (p.sigSource.isSome && !p.sigDestinations.isEmpty) || p.hasNoConnectBitsConnection

/-- `Path::setSigSource` (path.cpp:59-67): keep the existing driver unless it
is unset or overwriting is allowed. -/
def Path.setSigSource (p : Path) (s : Port) (allowOverwrite : Bool) : Path :=
  if p.sigSource.isSome && !allowOverwrite then p else { p with sigSource := some s }

/-- `Path::addSigDestination`. -/
def Path.addSigDestination (p : Path) (d : Port) : Path :=
  { p with sigDestinations := p.sigDestinations ++ [d] }

/-- `Path::addAlternativeName`. -/
def Path.addAlternativeName (p : Path) (n : String) : Path :=
  { p with alternativeNames := p.alternativeNames ++ [n] }

/-- Second `Path` constructor `Path(name, bits, hiddenName)` (path.cpp:46-55):
width is the bit count, driver unset, no destinations or alternates. -/
def mkPath (name : String) (bits : List String) (hiddenName : Bool) : Path :=
  Path.mk name bits.length bits hiddenName none [] []

/-- `Module::getMaxBitNumber`: maximum over boundary ports and node ports. -/
def Module.getMaxBitNumber (m : Module) : Nat :=
  m.nodes.foldl
    (fun acc n => n.ports.foldl (fun a p => max a p.getMaxBitNumber) acc)
    (m.ports.foldl (fun a p => max a p.getMaxBitNumber) 0)

/-- `Module::getNetnameByBits`: first netname with exactly these bits. -/
def Module.getNetnameByBits (nns : List Netname) (bits : List String) : Option Netname :=
  nns.find? (fun nn => nn.bits == bits)

/-- `Module::getPathByBits`, as the index of the first path with these bits
(the C++ returns the shared pointer; the index identifies the same path). -/
def findPathIdxByBits (paths : List Path) (bits : List String) : Option Nat :=
  paths.findIdx? (fun p => p.bits == bits)

/-- `Module::removePath`: erase the first occurrence of the path. -/
def Module.removePath (m : Module) (p : Path) : Module :=
  { m with paths := m.paths.erase p }

/-- `Module::isEmpty`. -/
def Module.isEmpty (m : Module) : Bool :=
  m.paths.isEmpty && m.nodes.isEmpty && m.ports.isEmpty

/-- `Module::hasModuleInvalidPaths`. -/
def Module.hasModuleInvalidPaths (m : Module) : Bool :=
  !(m.paths.all Path.hasConnection) || m.paths.isEmpty

/-! ### Dangling path pruner (`Parser::removeUnconnectedPaths`, parser.cpp:804-822) -/

/-- `Parser::removeUnconnectedPaths`: collect the paths without a connection,
then remove each of them from the module. -/
def removeUnconnectedPaths (m : Module) : Module :=
  let pathsToRemove := m.paths.filter (fun p => !p.hasConnection)
  pathsToRemove.foldl (fun m' p => m'.removePath p) m

/-! ### Signal resolver (`Parser::createSplitJoin`, parser.cpp:471-556).

The C++ runs an explicit task stack; the one recursive call (the sink-pool
case, line 534) passes a freshly created empty sink pool, so that inner run can
never take the sink-pool branch again.  The embedding therefore has two layers:
an inner step/run over a state without a sink pool (where the sink-pool test
`indexOfContains [] q` is provably `-1`), and an outer step/run whose sink-pool
branch invokes the completed inner run.  Both runs are driven by fuel; the
termination theorems show the stack weight strictly decreases each step, so the
weight itself is always enough fuel. -/

/-- `Task` (parser.h:312-317). -/
structure Task where
  startIdx : Int
  endIdx : Int
  querryBits : List String
deriving DecidableEq, Inhabited

/-- `QList::mid(pos, len)`: elements from `pos` on, at most `len` of them; a
negative `len` means all remaining elements. -/
def listMid (l : List String) (pos len : Int) : List String :=
  if len < 0 then l.drop pos.toNat else (l.drop pos.toNat).take len.toNat

/-- Result of `std::search(h.begin(), h.end(), n.begin(), n.end()) != h.end()`:
true when the needle occurs as a contiguous sub-sequence starting strictly
before the end (an empty needle matches at `begin()`). -/
def searchFound (haystack needle : List String) : Bool :=
  match haystack with
  | [] => false
  | _ :: t => needle.isPrefixOf haystack || searchFound t needle

/-- `Parser::indexOfContains` (parser.cpp:549-556): index of the first pool
entry containing `element` as a contiguous sub-sequence, `-1` if none. -/
def indexOfContains (list : List (List String)) (element : List String) : Int :=
  match list.findIdx? (fun h => searchFound h element) with
  | some i => (i : Int)
  | none => -1

/-- Split/join discovery maps `std::map<QStringList, QList<QStringList>>`,
as association lists; `addToMap` keeps keys unique, and iteration for node
synthesis sorts by key (see `sortInfoByKey`). -/
abbrev InfoMap := List (List String × List (List String))

/-- `Parser::addToMap` (parser.cpp:558-569). -/
def addToMap (map : InfoMap) (key : List String) (value : List String) : InfoMap :=
  match map with
  | [] => [(key, [value])]
  | (k, vs) :: rest =>
    if k = key then (k, vs ++ [value]) :: rest else (k, vs) :: addToMap rest key value

/-- Removal of the resolved sink from the pool (parser.cpp:488-492):
`destPorts.indexOf(toSolve)` followed by `destPorts.remove(destIdx, 1)`. -/
def removeFirstEq (pool : List (List String)) (toSolve : List String) :
    List (List String) :=
  match pool.findIdx? (fun d => d == toSolve) with
  | some i => pool.eraseIdx i
  | none => pool

/-- State of the inner (scratch) resolver run: the sink pool is the empty
scratch list created at parser.cpp:533 and never grows, so it is not stored. -/
structure SJInnerState where
  tasks : List Task
  srcPorts : List (List String)
  splitInfo : InfoMap
  joinInfo : InfoMap
deriving DecidableEq, Inhabited

/-- One iteration of the `createSplitJoin` worklist loop for the inner run
(empty scratch sink pool); `none` when the stack is empty.  The sink-pool
branch cannot fire because `indexOfContains [] q = -1` by computation. -/
def innerStep (toSolve : List String) (s : SJInnerState) : Option SJInnerState :=
  match s.tasks with
  | [] => none
  | current :: rest => some (
    -- destPorts.indexOf(toSolve) on the empty scratch pool is -1: no removal
    if (toSolve.length : Int) ≤ current.startIdx ∨
        current.endIdx - current.startIdx < 1 then
      { s with tasks := rest }
    else
      let querryBits := current.querryBits
      if s.srcPorts.contains querryBits then
        let join1 := if querryBits ≠ toSolve
          then addToMap s.joinInfo toSolve querryBits else s.joinInfo
        { s with
          tasks := Task.mk current.endIdx (toSolve.length : Int)
              (listMid toSolve current.endIdx ((toSolve.length : Int) - current.endIdx))
            :: rest,
          joinInfo := join1 }
      else
        let indexOfSubPath := indexOfContains s.srcPorts querryBits
        if indexOfSubPath ≠ -1 then
          let join1 := if querryBits ≠ toSolve
            then addToMap s.joinInfo toSolve querryBits else s.joinInfo
          let split1 := addToMap s.splitInfo
            (s.srcPorts.getD indexOfSubPath.toNat []) querryBits
          { s with
            tasks := Task.mk current.endIdx (toSolve.length : Int)
                (listMid toSolve current.endIdx ((toSolve.length : Int) - current.endIdx))
              :: rest,
            joinInfo := join1, splitInfo := split1,
            srcPorts := s.srcPorts ++ [querryBits] }
        else
          if h : indexOfContains [] querryBits ≠ -1 then
            absurd rfl h
          else
            { s with
              tasks := Task.mk current.startIdx
                  (current.startIdx + (querryBits.length : Int) - 1)
                  (listMid toSolve current.startIdx ((querryBits.length : Int) - 1))
                :: rest })

/-- Weight of a task: `1` when it will be discarded by the guard, otherwise a
lexicographic combination of how far its start index is from the end of
`toSolve` and its query length. -/
def taskWeight (len : Nat) (t : Task) : Nat :=
  if (len : Int) ≤ t.startIdx ∨ t.endIdx - t.startIdx < 1 then 1
  else ((len : Int) + 1 - t.startIdx).toNat * (len + 2) + t.querryBits.length + 2

/-- Total weight of a task stack. -/
def tasksWeight (len : Nat) (ts : List Task) : Nat :=
  (ts.map (taskWeight len)).sum

/-- Fuel-driven inner worklist loop. -/
def runInner (toSolve : List String) : Nat → SJInnerState → SJInnerState
  | 0, s => s
  | Nat.succ n, s =>
    match innerStep toSolve s with
    | none => s
    | some s1 => runInner toSolve n s1

/-- The recursive call at parser.cpp:534:
`createSplitJoin(srcPorts, tmpDstPorts, querryBits, 0, querryBits.length(), splitInfo, joinInfo)`
with `tmpDstPorts` empty.  Returns the updated source pool and info maps. -/
def createSplitJoinInner (srcPorts : List (List String)) (toSolve : List String)
    (splitInfo joinInfo : InfoMap) :
    List (List String) × InfoMap × InfoMap :=
  let t0 := Task.mk 0 (toSolve.length : Int) (listMid toSolve 0 ((toSolve.length : Int) - 0))
  let init : SJInnerState := SJInnerState.mk [t0] srcPorts splitInfo joinInfo
  let fin := runInner toSolve (tasksWeight toSolve.length init.tasks) init
  (fin.srcPorts, fin.splitInfo, fin.joinInfo)

/-- State of the outer resolver run for one sink bit-sequence. -/
structure SJState where
  tasks : List Task
  srcPorts : List (List String)
  destPorts : List (List String)
  splitInfo : InfoMap
  joinInfo : InfoMap
deriving DecidableEq, Inhabited

/-- One iteration of the `createSplitJoin` worklist loop (parser.cpp:483-545);
`none` when the stack is empty. -/
def outerStep (toSolve : List String) (s : SJState) : Option SJState :=
  match s.tasks with
  | [] => none
  | current :: rest => some (
    let destPorts1 := removeFirstEq s.destPorts toSolve
    if (toSolve.length : Int) ≤ current.startIdx ∨
        current.endIdx - current.startIdx < 1 then
      { s with tasks := rest, destPorts := destPorts1 }
    else
      let querryBits := current.querryBits
      if s.srcPorts.contains querryBits then
        let join1 := if querryBits ≠ toSolve
          then addToMap s.joinInfo toSolve querryBits else s.joinInfo
        { s with
          tasks := Task.mk current.endIdx (toSolve.length : Int)
              (listMid toSolve current.endIdx ((toSolve.length : Int) - current.endIdx))
            :: rest,
          destPorts := destPorts1, joinInfo := join1 }
      else
        let indexOfSubPath := indexOfContains s.srcPorts querryBits
        if indexOfSubPath ≠ -1 then
          let join1 := if querryBits ≠ toSolve
            then addToMap s.joinInfo toSolve querryBits else s.joinInfo
          let split1 := addToMap s.splitInfo
            (s.srcPorts.getD indexOfSubPath.toNat []) querryBits
          { s with
            tasks := Task.mk current.endIdx (toSolve.length : Int)
                (listMid toSolve current.endIdx ((toSolve.length : Int) - current.endIdx))
              :: rest,
            destPorts := destPorts1, joinInfo := join1, splitInfo := split1,
            srcPorts := s.srcPorts ++ [querryBits] }
        else
          if indexOfContains destPorts1 querryBits ≠ -1 then
            let join1 := if querryBits ≠ toSolve
              then addToMap s.joinInfo toSolve querryBits else s.joinInfo
            let inner := createSplitJoinInner s.srcPorts querryBits s.splitInfo join1
            let tasks1 := if searchFound toSolve querryBits then
                Task.mk current.endIdx (toSolve.length : Int)
                    (listMid toSolve current.endIdx ((toSolve.length : Int) - current.endIdx))
                  :: rest
              else rest
            SJState.mk tasks1 (inner.1 ++ [querryBits]) destPorts1 inner.2.1 inner.2.2
          else
            { s with
              tasks := Task.mk current.startIdx
                  (current.startIdx + (querryBits.length : Int) - 1)
                  (listMid toSolve current.startIdx ((querryBits.length : Int) - 1))
                :: rest,
              destPorts := destPorts1 })

/-- Fuel-driven outer worklist loop. -/
def runOuter (toSolve : List String) : Nat → SJState → SJState
  | 0, s => s
  | Nat.succ n, s =>
    match outerStep toSolve s with
    | none => s
    | some s1 => runOuter toSolve n s1

/-- `Parser::createSplitJoin`: seed the stack with
`(startIdx, endIdx, toSolve.mid(startIdx, endIdx - startIdx))` and run the
worklist to completion; returns the updated source pool, sink pool and
split/join maps (the reference parameters of the C++ function). -/
def createSplitJoin (srcPorts destPorts : List (List String)) (toSolve : List String)
    (startIdx endIdx : Int) (splitInfo joinInfo : InfoMap) :
    List (List String) × List (List String) × InfoMap × InfoMap :=
  let t0 := Task.mk startIdx endIdx (listMid toSolve startIdx (endIdx - startIdx))
  let init : SJState := SJState.mk [t0] srcPorts destPorts splitInfo joinInfo
  let fin := runOuter toSolve (tasksWeight toSolve.length init.tasks) init
  (fin.srcPorts, fin.destPorts, fin.splitInfo, fin.joinInfo)

/-! ### Constant materializer (`Parser::replaceConstBits`, parser.cpp:571-632) -/

/-- Translation table `Parser::constToNonConstPortBits`
(`std::map<QStringList, QStringList>`), as an association list; assignment
`map[key] = value` overwrites an existing entry. -/
abbrev TransMap := List (List String × List String)

/-- `std::map` assignment `map[key] = value`. -/
def mapAssign (m : TransMap) (k v : List String) : TransMap :=
  match m with
  | [] => [(k, v)]
  | (k1, v1) :: rest =>
    if k1 = k then (k, v) :: rest else (k1, v1) :: mapAssign rest k v

/-- The token loop of `Parser::replaceConstBits` (parser.cpp:614-619):
`len` times increment the `unsigned long long` counter — wrapping mod `2^64`
— and render the new value in decimal (`QString::number(maxBitNumber)`). -/
def freshBitsLoop : Nat → Nat → List String × Nat
  | c, 0 => ([], c)
  | c, len + 1 =>
    (natToDecStr ((c + 1) % u64Mod)
        :: (freshBitsLoop ((c + 1) % u64Mod) len).1,
     (freshBitsLoop ((c + 1) % u64Mod) len).2)

/-- Inner loop of `Parser::replaceConstBits` (parser.cpp:606-627): walk the
`splitBits` runs of one port in map (= ascending range) order; for each run
whose first bit is constant, allocate `run.length` fresh tokens by repeatedly
incrementing the module-wide `unsigned long long` counter (wrapping mod
`2^64`), create the `<name>_const` CONST port, and splice the tokens into the
port's bits at the run's range. -/
def processRuns (portName : String) (runs : List ((Nat × Nat) × List String))
    (bits : List String) (counter : Nat) : List String × List Port × Nat :=
  match runs with
  | [] => (bits, [], counter)
  | ((s, e), bitValue) :: rest =>
    if bitValue.headD "" ≠ "0" ∧ bitValue.headD "" ≠ "1" then
      processRuns portName rest bits counter
    else
      let fresh := freshBitsLoop counter bitValue.length
      let constPort := createConstantPort (portName ++ "_const") fresh.1 bitValue
      let bits1 := replaceBitsRange bits s e fresh.1
      let next := processRuns portName rest bits1 fresh.2
      (next.1, constPort :: next.2.1, next.2.2)

/-- Per-port body of `Parser::replaceConstBits`: segment the port's bits and
process the runs, returning the rewritten port, the created CONST ports and
the advanced counter. -/
def replaceConstBitsPort (p : Port) (counter : Nat) : Port × List Port × Nat :=
  let res := processRuns p.name (splitBits p.bits) p.bits counter
  ({ p with bits := res.1 }, res.2.1, res.2.2)

/-- Processing of the qualifying ports of one pool (direction `dir` with at
least one constant bit; `dir` is OUTPUT for the boundary pool and INPUT for a
node's ports, matching the collection loops at parser.cpp:580-597), in list
order, threading the counter, the created CONST ports and the translation
table. -/
def processConstPortList (dir : EDirection) (ports : List Port) (counter : Nat)
    (tmap : TransMap) : List Port × List Port × Nat × TransMap :=
  match ports with
  | [] => ([], [], counter, tmap)
  | p :: rest =>
    if p.direction = dir ∧ p.hasConstantBits then
      let r := replaceConstBitsPort p counter
      let tmap1 := mapAssign tmap p.bits r.1.bits
      let next := processConstPortList dir rest r.2.2 tmap1
      (r.1 :: next.1, r.2.1 ++ next.2.1, next.2.2)
    else
      let next := processConstPortList dir rest counter tmap
      (p :: next.1, next.2.1, next.2.2)

/-- Processing of all nodes in order (INPUT ports with constant bits). -/
def processNodesConst (nodes : List Node) (counter : Nat) (tmap : TransMap) :
    List Node × List Port × Nat × TransMap :=
  match nodes with
  | [] => ([], [], counter, tmap)
  | n :: rest =>
    let r := processConstPortList EDirection.INPUT n.ports counter tmap
    let next := processNodesConst rest r.2.2.1 r.2.2.2
    ({ n with ports := r.1 } :: next.1, r.2.1 ++ next.2.1, next.2.2)

/-- `Parser::replaceConstBits`: seed the counter with the module's maximum
numeric bit token, process the collected ports (boundary OUTPUT first, then
node INPUT, in collection order), append every created CONST port to the
module's boundary pool, and extend the translation table. -/
def replaceConstBits (m : Module) (tmap : TransMap) : Module × TransMap :=
  let maxBitNumber := m.getMaxBitNumber
  let rb := processConstPortList EDirection.OUTPUT m.ports maxBitNumber tmap
  let rn := processNodesConst m.nodes rb.2.2.1 rb.2.2.2
  ({ m with ports := rb.1 ++ rb.2.1 ++ rn.2.1, nodes := rn.1 }, rn.2.2.2)

/-! ### Node synthesizer (`Parser::createSplitNodes` / `createJoinNodes`,
parser.cpp:634-694).  The C++ iterates a `std::map` keyed by `QStringList`,
i.e. in lexicographic key order; `sortInfoByKey` reproduces that order
(`addToMap` keeps keys unique, so ties cannot arise). -/

/-- Lexicographic comparison of bit-sequences, mirroring
`operator<(QList<QString>, QList<QString>)`. -/
def cmpListStr : List String → List String → Ordering
  | [], [] => Ordering.eq
  | [], _ :: _ => Ordering.lt
  | _ :: _, [] => Ordering.gt
  | a :: as, b :: bs =>
    match compare a b with
    | Ordering.eq => cmpListStr as bs
    | o => o

/-- Insert an entry into a key-sorted info list. -/
def insertInfoByKey (kv : List String × List (List String)) :
    InfoMap → InfoMap
  | [] => [kv]
  | kv1 :: rest =>
    match cmpListStr kv.1 kv1.1 with
    | Ordering.lt => kv :: kv1 :: rest
    | _ => kv1 :: insertInfoByKey kv rest

/-- Iteration order of `std::map<QStringList, QList<QStringList>>`. -/
def sortInfoByKey (m : InfoMap) : InfoMap :=
  m.foldl (fun acc kv => insertInfoByKey kv acc) []

/-- `Parser::createSplitNodes`: one "split" node per map entry, with an `in`
INPUT port for the source bits and `out<i>` OUTPUT ports for the children in
discovery order. -/
def createSplitNodes (m : Module) (splitInfo : InfoMap) : Module :=
  let mkNode := fun (idx : Nat) (kv : List String × List (List String)) =>
    Node.mk ("split" ++ natToDecStr idx) "split"
      (Port.mk "in" EDirection.INPUT kv.1 0 ::
        (kv.2.enum.map
          (fun dv => Port.mk ("out" ++ natToDecStr dv.1) EDirection.OUTPUT dv.2 0)))
  { m with nodes := m.nodes ++ ((sortInfoByKey splitInfo).enum.map
      (fun kvi => mkNode kvi.1 kvi.2)) }

/-- `Parser::createJoinNodes`: one "join" node per map entry, with `in<i>`
INPUT ports for the parts and an `out` OUTPUT port for the composite. -/
def createJoinNodes (m : Module) (joinInfo : InfoMap) : Module :=
  let mkNode := fun (idx : Nat) (kv : List String × List (List String)) =>
    Node.mk ("join" ++ natToDecStr idx) "join"
      ((kv.2.enum.map
          (fun dv => Port.mk ("in" ++ natToDecStr dv.1) EDirection.INPUT dv.2 0))
        ++ [Port.mk "out" EDirection.OUTPUT kv.1 0])
  { m with nodes := m.nodes ++ ((sortInfoByKey joinInfo).enum.map
      (fun kvi => mkNode kvi.1 kvi.2)) }

/-! ### Signal stitcher (`Parser::createSignalConnections` /
`connectSignalSrcConnections` / `connectSignalDestConnections`,
parser.cpp:696-802) -/

/-- `Parser::connectSignalSrcConnections` (parser.cpp:741-784): one path per
driver port.  The default name is `<port>_sig` with a hidden name; a CONST
port first looks its own bits up among the translation-table keys and, on a
hit, queries the netnames with the table's value; any other port queries the
netnames with its bits directly.  The driver is attached with
`Path::setSigSource` (default `allowOverwrite = false`). -/
def connectSignalSrcConnections (srcPorts : List Port) (tmap : TransMap)
    (netnames : List Netname) : List Path :=
  srcPorts.map (fun srcPort =>
    let dflt := (srcPort.name ++ "_sig", true)
    let nh :=
      if srcPort.direction = EDirection.CONST then
        match tmap.find? (fun kv => kv.1 == srcPort.bits) with
        | some kv =>
          match Module.getNetnameByBits netnames kv.2 with
          | some nn => (nn.name, nn.isHidden)
          | none => dflt
        | none => dflt
      else
        match Module.getNetnameByBits netnames srcPort.bits with
        | some nn => (nn.name, nn.isHidden)
        | none => dflt
    (mkPath nh.1 srcPort.bits nh.2).setSigSource srcPort false)

/-- `Parser::connectSignalDestConnections` (parser.cpp:786-802): each consumer
port is attached to the first path whose bits equal its bits, if any.  (The
C++ also sets the port's back-pointer to the path, which is not modelled.) -/
def connectSignalDestConnections (paths : List Path) (destPorts : List Port) :
    List Path :=
  destPorts.foldl
    (fun ps destPort =>
      match findPathIdxByBits ps destPort.bits with
      | none => ps
      | some i => ps.set i ((ps.getD i (mkPath "" [] true)).addSigDestination destPort))
    paths

/-- Driver/consumer pools of `Parser::createSignalConnections`
(parser.cpp:706-732): boundary INPUT/CONST ports drive, all other boundary
ports consume; node OUTPUT ports drive, all other node ports consume. -/
def collectSignalPools (m : Module) : List Port × List Port :=
  let boundary := m.ports.foldl
    (fun acc p =>
      if p.direction = EDirection.INPUT ∨ p.direction = EDirection.CONST then
        (acc.1 ++ [p], acc.2)
      else (acc.1, acc.2 ++ [p]))
    ([], [])
  m.nodes.foldl
    (fun acc n => n.ports.foldl
      (fun acc2 p =>
        if p.direction = EDirection.OUTPUT then (acc2.1 ++ [p], acc2.2)
        else (acc2.1, acc2.2 ++ [p]))
      acc)
    boundary

/-- `Parser::createSignalConnections`. -/
def createSignalConnections (m : Module) (tmap : TransMap) : Module :=
  let pools := collectSignalPools m
  let newPaths := connectSignalSrcConnections pools.1 tmap m.netnames
  { m with paths := connectSignalDestConnections (m.paths ++ newPaths) pools.2 }

/-! ### Pipeline driver (`Parser::connectDiagramConnections`, parser.cpp:139-212,
and the per-module part of `Parser::parse`, parser.cpp:60-137) -/

/-- Resolution pools of `Parser::connectDiagramConnections`
(parser.cpp:145-189): bit-sequences of boundary INPUT/CONST ports and node
OUTPUT ports drive; boundary OUTPUT and node INPUT bit-sequences consume;
ports with a no-connect bit are skipped. -/
def collectResolvePools (m : Module) : List (List String) × List (List String) :=
  let boundary := m.ports.foldl
    (fun acc p =>
      if p.hasNoConnectBitsConnection then acc
      else if p.direction = EDirection.INPUT ∨ p.direction = EDirection.CONST then
        (acc.1 ++ [p.bits], acc.2)
      else if p.direction = EDirection.OUTPUT then (acc.1, acc.2 ++ [p.bits])
      else acc)
    ([], [])
  m.nodes.foldl
    (fun acc n => n.ports.foldl
      (fun acc2 p =>
        if p.hasNoConnectBitsConnection then acc2
        else if p.direction = EDirection.INPUT then (acc2.1, acc2.2 ++ [p.bits])
        else if p.direction = EDirection.OUTPUT then (acc2.1 ++ [p.bits], acc2.2)
        else acc2)
      acc)
    boundary

/-- The `for(auto& destPort : destPorts)` loop of parser.cpp:195-204: resolve
each sink bit-sequence in turn against the shared pools and maps. -/
def resolveAllSinks (srcPorts copyDest : List (List String))
    (dests : List (List String)) (splitInfo joinInfo : InfoMap) :
    List (List String) × List (List String) × InfoMap × InfoMap :=
  match dests with
  | [] => (srcPorts, copyDest, splitInfo, joinInfo)
  | d :: rest =>
    let r := createSplitJoin srcPorts copyDest d 0 (d.length : Int) splitInfo joinInfo
    resolveAllSinks r.1 r.2.1 rest r.2.2.1 r.2.2.2

/-- `Parser::connectDiagramConnections`: collect the pools, resolve every sink
(on a consumable copy of the sink pool), synthesize join then split nodes, and
stitch the signals into paths. -/
def connectDiagramConnections (m : Module) (tmap : TransMap) : Module :=
  let pools := collectResolvePools m
  let r := resolveAllSinks pools.1 pools.2 pools.2 [] []
  let m1 := createJoinNodes m r.2.2.2
  let m2 := createSplitNodes m1 r.2.2.1
  createSignalConnections m2 tmap

/-- Per-module portion of `Parser::parse` (parser.cpp:98-126), after ports,
nodes and netnames are built: validation checks raise `Except.error` exactly
where the C++ throws `std::runtime_error`, and the translation table (a
`Parser` member that outlives each module) is threaded through. -/
def processModule (name : String) (m0 : Module) (tmap : TransMap) :
    Except String (Module × TransMap) :=
  if m0.ports.isEmpty && m0.nodes.isEmpty then
    Except.error ("Error while parsing " ++ name ++ ": Module has no Ports or Nodes")
  else
    let rc := replaceConstBits m0 tmap
    let m2 := connectDiagramConnections rc.1 rc.2
    let m3 := removeUnconnectedPaths m2
    if m3.hasModuleInvalidPaths then
      Except.error ("Error while parsing " ++ name ++ ": Module has no Paths or Nodes")
    else if m3.isEmpty then
      Except.error ("Error while parsing " ++ name ++ ": Module has no components")
    else
      Except.ok (m3, rc.2)

/-- The module loop of `Parser::parse` (parser.cpp:73-136): modules are
processed in order; a validation failure throws, which aborts the whole loop
(no catch inside `parse`), so no later sibling is processed. -/
def parseModules (modules : List (String × Module)) (tmap : TransMap) :
    Except String (List Module) :=
  match modules with
  | [] => Except.ok []
  | (name, m0) :: rest =>
    match processModule name m0 tmap with
    | Except.error e => Except.error e
    | Except.ok r =>
      match parseModules rest r.2 with
      | Except.error e => Except.error e
      | Except.ok ms => Except.ok (r.1 :: ms)

/-! ### Concrete instances used by counterexamples and witnesses -/

/-- Scenario-B module: one 4-bit boundary INPUT driver and two 2-bit boundary
OUTPUT sinks. -/
def c1In : Module :=
  Module.mk "top"
    [Port.mk "a" EDirection.INPUT ["n1", "n2", "n3", "n4"] 0,
     Port.mk "b1" EDirection.OUTPUT ["n1", "n2"] 0,
     Port.mk "b2" EDirection.OUTPUT ["n3", "n4"] 0]
    [] [] []

/-- The accepted module produced by the pipeline for the scenario-B input. -/
def c1Out : Module :=
  match processModule "top" c1In [] with
  | Except.ok r => r.1
  | Except.error _ => default

/-- A module with no ports and no nodes: rejected with "no Ports or Nodes". -/
def emptyInputModule : Module := Module.mk "m1" [] [] [] []

/-- A well-formed sibling module (scenario A: exact driver/sink match). -/
def goodSiblingModule : Module :=
  Module.mk "m2"
    [Port.mk "a" EDirection.INPUT ["2"] 0,
     Port.mk "b" EDirection.OUTPUT ["2"] 0]
    [] [] []

/-- A module whose only path has a driver but no consumer (and no no-connect
bit). -/
def driverOnlyModule : Module :=
  Module.mk "m" [] []
    [Path.mk "p" 1 ["5"] true (some (Port.mk "a" EDirection.INPUT ["5"] 0)) [] []]
    []

/-- A path whose driver is already set. -/
def drivenPath : Path :=
  Path.mk "p" 1 ["2"] false (some (Port.mk "d" EDirection.INPUT ["2"] 0)) [] []

/-- A fresh driver port. -/
def otherDriver : Port := Port.mk "s" EDirection.INPUT ["2"] 0

/-- A CONST port as materialization creates it: bits are the fresh tokens. -/
def c7ConstPort : Port := Port.mk "b_const" EDirection.CONST ["6", "7"] 1

/-- Translation table recording that the processed port's original bits
`["0","1"]` were rewritten to `["6","7"]`. -/
def c7TransMap : TransMap := [(["0", "1"], ["6", "7"])]

/-- A netname declared for the pre-materialization bits. -/
def c7Netnames : List Netname := [Netname.mk "w" ["0", "1"] false []]

/-- Reference (amended spec description) for the display name and hidden flag
the stitcher assigns to the path of a driver port: a CONST port's own
bit-sequence is used as the translation-table key, and a hit queries the
netnames with the table's post-materialization value; every other port queries
the netnames with its bits directly; on any miss the name is `<port>_sig` with
a hidden name. -/
def stitchedNameRef (p : Port) (tmap : TransMap) (nns : List Netname) :
    String × Bool :=
  if p.direction = EDirection.CONST then
    match tmap.find? (fun kv => kv.1 == p.bits) with
    | some kv =>
      match Module.getNetnameByBits nns kv.2 with
      | some nn => (nn.name, nn.isHidden)
      | none => (p.name ++ "_sig", true)
    | none => (p.name ++ "_sig", true)
  else
    match Module.getNetnameByBits nns p.bits with
    | some nn => (nn.name, nn.isHidden)
    | none => (p.name ++ "_sig", true)

/-- Concrete stitcher state for the single-claim witness: one fresh path and
one consumer port with matching bits. -/
def c8Paths : List Path := [mkPath "s_sig" ["2"] true]

/-- The consumer port of the single-claim witness. -/
def c8Dest : Port := Port.mk "b" EDirection.OUTPUT ["2"] 0

/-! ### Reference functions for the constant materializer's characterization -/

/-- Number of constant bits in a sequence. -/
def constCount (bits : List String) : Nat := bits.countP isConstBit

/-- Bitwise reference rewrite: each constant bit consumes the next counter
value and becomes its decimal rendering; net bits are kept; returns the
rewritten sequence and the advanced counter. -/
def rewriteBitsRef : List String → Nat → List String × Nat
  | [], c => ([], c)
  | b :: rest, c =>
    if isConstBit b then
      let r := rewriteBitsRef rest (c + 1)
      (natToDecStr (c + 1) :: r.1, r.2)
    else
      let r := rewriteBitsRef rest c
      (b :: r.1, r.2)

/-- Reference for the CONST ports created from a run list: one port per
constant run, carrying the block of tokens the counter hands out for it. -/
def constPortsRef (portName : String) : List ((Nat × Nat) × List String) → Nat →
    List Port
  | [], _ => []
  | ((_, _), r) :: rest, c =>
    if isConstBit (r.headD "") then
      createConstantPort (portName ++ "_const")
          ((List.range r.length).map (fun i => natToDecStr (c + 1 + i))) r
        :: constPortsRef portName rest (c + r.length)
    else
      constPortsRef portName rest c

/-- Total constant-bit count over the qualifying ports of one pool. -/
def portConstSum (dir : EDirection) : List Port → Nat
  | [] => 0
  | p :: rest =>
    (if p.direction = dir ∧ p.hasConstantBits then constCount p.bits else 0)
      + portConstSum dir rest

/-- Total constant-bit count over the INPUT ports of all nodes. -/
def nodesConstSum : List Node → Nat
  | [] => 0
  | n :: rest => portConstSum EDirection.INPUT n.ports + nodesConstSum rest

/-- The block of `count` fresh tokens handed out after counter value `base`. -/
def freshTokens (base count : Nat) : List String :=
  (List.range count).map (fun i => natToDecStr (base + 1 + i))

/-- Every bit-sequence slot of the module (boundary ports and node ports). -/
def allModuleBits (m : Module) : List String :=
  (m.ports.map (fun p => p.bits)).flatten
    ++ (m.nodes.map (fun n => (n.ports.map (fun p => p.bits)).flatten)).flatten

/-- Module whose highest numeric net-token is 0 and which holds the literal
bit "1" both as a constant (in OUTPUT port `b`, which gets materialized) and
as a plain bit of INPUT port `a`. -/
def c3Module : Module :=
  Module.mk "m"
    [Port.mk "b" EDirection.OUTPUT ["1"] 0,
     Port.mk "a" EDirection.INPUT ["1"] 0]
    [] [] []

/-- Reference: the rewritten port pool — qualifying ports get the reference
rewrite at the rolling counter, others are untouched. -/
def rewritePortsAll (dir : EDirection) : List Port → Nat → List Port
  | [], _ => []
  | p :: rest, c =>
    if p.direction = dir ∧ p.hasConstantBits then
      { p with bits := (rewriteBitsRef p.bits c).1 }
        :: rewritePortsAll dir rest (c + constCount p.bits)
    else
      p :: rewritePortsAll dir rest c

/-- Reference: all CONST ports created for one pool, in creation order. -/
def constPortsAll (dir : EDirection) : List Port → Nat → List Port
  | [], _ => []
  | p :: rest, c =>
    if p.direction = dir ∧ p.hasConstantBits then
      constPortsRef p.name (splitBits p.bits) c
        ++ constPortsAll dir rest (c + constCount p.bits)
    else
      constPortsAll dir rest c

/-- Reference: the rewritten node list. -/
def rewriteNodesAll : List Node → Nat → List Node
  | [], _ => []
  | n :: rest, c =>
    { n with ports := rewritePortsAll EDirection.INPUT n.ports c }
      :: rewriteNodesAll rest (c + portConstSum EDirection.INPUT n.ports)

/-- Reference: all CONST ports created for the node pools, in creation order. -/
def constPortsNodesAll : List Node → Nat → List Port
  | [], _ => []
  | n :: rest, c =>
    constPortsAll EDirection.INPUT n.ports c
      ++ constPortsNodesAll rest (c + portConstSum EDirection.INPUT n.ports)

/-- Amended C3 per-position contract (spec-side predicate): the rewritten
bit-sequence keeps its length; a previously-constant position `j` now holds
the decimal rendering of the counter value `c + 1 + (constants before j)` and
that token differs from every net-token bit of the original module; a
previously-non-constant position is unchanged. -/
def constMaterializeOkBits (m : Module) (c : Nat) (old nw : List String) : Prop :=
  nw.length = old.length ∧
  ∀ j, j < old.length →
    (isConstBit (old.getD j "") = true →
      nw.getD j "" = natToDecStr (c + 1 + constCount (old.take j)) ∧
      ∀ b ∈ allModuleBits m, ¬(b = "x" ∨ b = "0" ∨ b = "1") → b ≠ nw.getD j "") ∧
    (isConstBit (old.getD j "") = false → nw.getD j "" = old.getD j "")

/-! ## Theorems -/

theorem digitChar_isDigit {n : Nat} (h : n < 10) : (Nat.digitChar n).isDigit = true := by
  interval_cases n <;> decide

theorem digitVal_digitChar {n : Nat} (h : n < 10) : digitVal (Nat.digitChar n) = n := by
  interval_cases n <;> decide

theorem parseDecDigits_append_single (l : List Char) (c : Char) :
    parseDecDigits (l ++ [c]) = 10 * parseDecDigits l + digitVal c := by
  simp [parseDecDigits, List.foldl_append]
  omega

theorem decDigitsAux_spec (fuel : Nat) :
    ∀ n, n < fuel →
      decDigitsAux fuel n ≠ [] ∧
      (decDigitsAux fuel n).all Char.isDigit = true ∧
      parseDecDigits (decDigitsAux fuel n) = n := by
  induction fuel with
  | zero => intro n h; omega
  | succ fuel ih =>
    intro n h
    by_cases h10 : n < 10
    · simp only [decDigitsAux, h10, if_true]
      refine ⟨by simp, ?_, ?_⟩
      · simp [digitChar_isDigit h10]
      · simp [parseDecDigits, digitVal_digitChar h10]
    · simp only [decDigitsAux, h10, if_false]
      have hdiv : n / 10 < fuel := by omega
      obtain ⟨ih1, ih2, ih3⟩ := ih (n / 10) hdiv
      refine ⟨by simp, ?_, ?_⟩
      · simp only [List.all_append, List.all_cons, List.all_nil, Bool.and_true]
        rw [ih2, digitChar_isDigit (Nat.mod_lt n (by omega))]
        rfl
      · rw [parseDecDigits_append_single, ih3,
          digitVal_digitChar (Nat.mod_lt n (by omega))]
        omega

theorem decDigits_ne_nil (n : Nat) : decDigits n ≠ [] :=
  (decDigitsAux_spec (n + 1) n (by omega)).1

theorem decDigits_all_isDigit (n : Nat) : (decDigits n).all Char.isDigit = true :=
  (decDigitsAux_spec (n + 1) n (by omega)).2.1

theorem parseDecDigits_decDigits (n : Nat) : parseDecDigits (decDigits n) = n :=
  (decDigitsAux_spec (n + 1) n (by omega)).2.2

theorem digitChar_props {n : Nat} (h : n < 10) :
    qtIsSpace (Nat.digitChar n) = false ∧ Nat.digitChar n ≠ '+' := by
  interval_cases n <;> exact ⟨by decide, by decide⟩

theorem decDigitsAux_chars (fuel : Nat) :
    ∀ n, n < fuel → ∀ ch ∈ decDigitsAux fuel n,
      qtIsSpace ch = false ∧ ch ≠ '+' := by
  induction fuel with
  | zero => intro n h; omega
  | succ fuel ih =>
    intro n h ch hch
    by_cases h10 : n < 10
    · simp only [decDigitsAux, h10, if_true, List.mem_singleton] at hch
      subst hch
      exact digitChar_props h10
    · simp only [decDigitsAux, h10, if_false, List.mem_append,
        List.mem_singleton] at hch
      rcases hch with hch | hch
      · exact ih (n / 10) (by omega) ch hch
      · subst hch
        exact digitChar_props (Nat.mod_lt n (by omega))

theorem decDigits_chars (n : Nat) :
    ∀ ch ∈ decDigits n, qtIsSpace ch = false ∧ ch ≠ '+' :=
  decDigitsAux_chars (n + 1) n (by omega)

theorem dropWhile_eq_self_of_all_neg {p : Char → Bool} (l : List Char)
    (h : ∀ a ∈ l, p a = false) : l.dropWhile p = l := by
  cases l with
  | nil => rfl
  | cons a t =>
    rw [List.dropWhile_cons]
    simp [h a (List.mem_cons_self a t)]

theorem qtTrimSpaces_eq_self (l : List Char)
    (hsp : ∀ ch ∈ l, qtIsSpace ch = false) : qtTrimSpaces l = l := by
  unfold qtTrimSpaces
  rw [dropWhile_eq_self_of_all_neg l hsp,
    dropWhile_eq_self_of_all_neg l.reverse
      (fun a ha => hsp a (List.mem_reverse.mp ha)),
    List.reverse_reverse]

theorem qtNumTrim_eq_self (l : List Char)
    (hsp : ∀ ch ∈ l, qtIsSpace ch = false)
    (hpl : ∀ ch ∈ l, ch ≠ '+') : qtNumTrim l = l := by
  unfold qtNumTrim
  rw [qtTrimSpaces_eq_self l hsp]
  cases l with
  | nil => rfl
  | cons a t =>
    simp only [List.headD_cons]
    rw [if_neg (hpl a (List.mem_cons_self a t))]

theorem qtDecimalVal_natToDecStr (n : Nat) :
    qtDecimalVal (natToDecStr n) = some n := by
  have htrim : qtNumTrim (natToDecStr n).data = decDigits n := by
    have h1 : (natToDecStr n).data = decDigits n := rfl
    rw [h1]
    exact qtNumTrim_eq_self (decDigits n)
      (fun ch hch => (decDigits_chars n ch hch).1)
      (fun ch hch => (decDigits_chars n ch hch).2)
  unfold qtDecimalVal
  rw [htrim, if_pos ⟨decDigits_ne_nil n, decDigits_all_isDigit n⟩,
    parseDecDigits_decDigits]

theorem qtToULong_natToDecStr {n : Nat} (h : n < u64Mod) :
    qtToULong (natToDecStr n) = n := by
  unfold qtToULong
  rw [qtDecimalVal_natToDecStr]
  simp only [Option.getD_some]
  rw [if_pos h]

/-- A string whose Qt numeric value is at most `M` cannot be the decimal
rendering of any representable number exceeding `M`: such renderings parse
back to their value.  This is the engine behind token freshness. -/
theorem ne_natToDecStr_of_qtToULong_le {b : String} {M k : Nat}
    (hb : qtToULong b ≤ M) (hk : M < k) (hk2 : k < u64Mod) :
    b ≠ natToDecStr k := by
  intro h
  rw [h, qtToULong_natToDecStr hk2] at hb
  omega

theorem natToDecStr_injective : Function.Injective natToDecStr := by
  intro a b h
  have hd : decDigits a = decDigits b := congrArg String.data h
  have := congrArg parseDecDigits hd
  rwa [parseDecDigits_decDigits, parseDecDigits_decDigits] at this

/-- Concatenating the runs emitted by the loop restores `cur ++ rest`. -/
theorem splitBitsLoop_join (rest : List String) :
    ∀ (cur : List String) (start : Nat) (lastC : Bool),
      ((splitBitsLoop rest cur start lastC).map (fun r => r.2)).flatten = cur ++ rest := by
  induction rest with
  | nil =>
    intro cur start lastC
    unfold splitBitsLoop
    by_cases h : cur.isEmpty
    · simp_all [List.isEmpty_iff]
    · simp [h]
  | cons b rest ih =>
    intro cur start lastC
    unfold splitBitsLoop
    by_cases h1 : (cur.isEmpty || (isConstBit b == lastC)) = true
    · rw [if_pos h1, ih]
      simp
    · rw [if_neg h1]
      simp [ih]

theorem splitBitsLoop_runs (rest : List String) :
    ∀ (cur : List String) (start : Nat) (lastC : Bool),
      cur ≠ [] → (∀ b ∈ cur, isConstBit b = lastC) →
      RunsFrom start (splitBitsLoop rest cur start lastC) ∧
      splitBitsLoop rest cur start lastC ≠ [] ∧
      isConstBit (((splitBitsLoop rest cur start lastC).headD ((0,0),[])).2.headD "")
        = lastC := by
  induction rest with
  | nil =>
    intro cur start lastC hne hcl
    obtain ⟨c, cs, rfl⟩ := List.exists_cons_of_ne_nil hne
    have hc : isConstBit c = lastC := hcl c (by simp)
    unfold splitBitsLoop
    rw [if_neg (by simp)]
    refine ⟨⟨rfl, by simp, rfl, ?_, trivial, trivial⟩, by simp, by simpa using hc⟩
    intro b hb
    rw [hcl b hb]
    simp [hc]
  | cons b rest ih =>
    intro cur start lastC hne hcl
    obtain ⟨c, cs, rfl⟩ := List.exists_cons_of_ne_nil hne
    have hc : isConstBit c = lastC := hcl c (by simp)
    unfold splitBitsLoop
    by_cases hcls : isConstBit b = lastC
    · rw [if_pos (by simp [hcls])]
      have hcl' : ∀ x ∈ (c :: cs) ++ [b], isConstBit x = isConstBit b := by
        intro x hx
        rcases List.mem_append.mp hx with hx | hx
        · rw [hcl x hx, hcls]
        · simp at hx; subst hx; rfl
      rw [← hcls]
      exact ih ((c :: cs) ++ [b]) start (isConstBit b) (by simp) hcl'
    · rw [if_neg (by simp [hcls])]
      obtain ⟨hruns, hnenil, hhead⟩ :=
        ih [b] (start + (c :: cs).length) (isConstBit b) (by simp) (by simp)
      refine ⟨⟨rfl, by simp, rfl, ?_, hruns, ?_⟩, by simp, by simpa using hc⟩
      · intro x hx
        rw [hcl x hx]
        simp [hc]
      · obtain ⟨hd', tl, htl⟩ := List.exists_cons_of_ne_nil hnenil
        obtain ⟨⟨s', e'⟩, r'⟩ := hd'
        rw [htl]
        show isConstBit (r'.headD "") ≠ isConstBit ((c :: cs).headD "")
        rw [htl] at hhead
        simp only [List.headD_cons] at hhead ⊢
        rw [hhead, hc]
        exact hcls

theorem splitBits_join (bits : List String) :
    ((splitBits bits).map (fun r => r.2)).flatten = bits := by
  match bits with
  | [] => rfl
  | b :: rest =>
    show ((splitBitsLoop (b :: rest) [] 0 (isConstBit b)).map (fun r => r.2)).flatten
      = b :: rest
    rw [splitBitsLoop_join]
    rfl

theorem splitBits_runs (bits : List String) : RunsFrom 0 (splitBits bits) := by
  match bits with
  | [] => trivial
  | b :: rest =>
    show RunsFrom 0 (splitBitsLoop (b :: rest) [] 0 (isConstBit b))
    unfold splitBitsLoop
    rw [if_pos (by simp)]
    exact (splitBitsLoop_runs rest [b] 0 (isConstBit b) (by simp) (by simp)).1

/-- From the runs invariant: adjacent runs differ in classification, their
start indices strictly increase, and every run is nonempty and homogeneous. -/
theorem runsFrom_facts {start : Nat} {runs : List ((Nat × Nat) × List String)}
    (h : RunsFrom start runs) :
    (∀ r ∈ runs, r.2 ≠ [] ∧ ∀ b ∈ r.2, isConstBit b = isConstBit (r.2.headD "")) ∧
    (∀ i, i + 1 < runs.length →
      isConstBit ((runs.getD (i+1) ((0,0),[])).2.headD "")
        ≠ isConstBit ((runs.getD i ((0,0),[])).2.headD "") ∧
      (runs.getD i ((0,0),[])).1.1 < (runs.getD (i+1) ((0,0),[])).1.1) := by
  induction runs generalizing start with
  | nil => exact ⟨by simp, by simp⟩
  | cons hd tl ih =>
    match hd with
    | ((s, e), r) =>
      obtain ⟨hs, hrne, he, hhom, htl, hadj⟩ := h
      obtain ⟨ih1, ih2⟩ := ih htl
      constructor
      · intro x hx
        rcases List.mem_cons.mp hx with hx | hx
        · subst hx; exact ⟨hrne, hhom⟩
        · exact ih1 x hx
      · intro i hi
        match i with
        | 0 =>
          match tl, hadj with
          | ((s', e'), r') :: tl', hadj =>
            refine ⟨by simpa using hadj, ?_⟩
            obtain ⟨hs', _, _, _, _, _⟩ := htl
            simp only [List.getD_cons_zero, List.getD_cons_succ]
            subst hs hs'
            have : r.length ≠ 0 := by simpa using hrne
            omega
        | Nat.succ j =>
          have hj : j + 1 < tl.length := by simpa using hi
          simpa using ih2 j hj

/-- Erasing, one by one, every element of `l` that fails `pred` is the same as
filtering `l` by `pred`. -/
theorem foldl_erase_filter (pred : Path → Bool) (l : List Path) :
    (l.filter (fun p => !pred p)).foldl (fun acc p => acc.erase p) l
      = l.filter pred := by
  have main : ∀ (toGo keep : List Path),
      (∀ p ∈ keep, pred p = true) →
      (toGo.filter (fun p => !pred p)).foldl (fun acc p => acc.erase p) (keep ++ toGo)
        = keep ++ toGo.filter pred := by
    intro toGo
    induction toGo with
    | nil => intro keep _; simp
    | cons a t ih =>
      intro keep hkeep
      by_cases ha : pred a = true
      · have h1 : (a :: t).filter (fun p => !pred p) = t.filter (fun p => !pred p) := by
          simp [List.filter_cons, ha]
        have h2 : keep ++ a :: t = (keep ++ [a]) ++ t := by simp
        rw [h1, h2, ih (keep ++ [a]) ?_]
        · simp [List.filter_cons, ha]
        · intro p hp
          rcases List.mem_append.mp hp with hp | hp
          · exact hkeep p hp
          · simp at hp; subst hp; exact ha
      · have h1 : (a :: t).filter (fun p => !pred p)
            = a :: t.filter (fun p => !pred p) := by
          simp [List.filter_cons, ha]
        have hnotin : a ∉ keep := fun hmem => ha (hkeep a hmem)
        have h2 : (keep ++ a :: t).erase a = keep ++ t := by
          rw [List.erase_append_right _ hnotin, List.erase_cons_head]
        rw [h1, List.foldl_cons, h2, ih keep hkeep]
        simp [List.filter_cons, ha]
  simpa using main l [] (by simp)

/-- The pruner keeps exactly the paths satisfying `Path::hasConnection`, and
touches nothing else in the module. -/
theorem removeUnconnectedPaths_eq_filter (m : Module) :
    removeUnconnectedPaths m = { m with paths := m.paths.filter Path.hasConnection } := by
  show (m.paths.filter (fun p => !p.hasConnection)).foldl
      (fun m' p => m'.removePath p) m
    = { m with paths := m.paths.filter Path.hasConnection }
  have hgen : ∀ (rm : List Path) (mm : Module),
      rm.foldl (fun m' p => m'.removePath p) mm
        = { mm with paths := rm.foldl (fun acc p => acc.erase p) mm.paths } := by
    intro rm
    induction rm with
    | nil => intro mm; rfl
    | cons a t ih => intro mm; rw [List.foldl_cons, ih]; rfl
  rw [hgen]
  rw [foldl_erase_filter Path.hasConnection m.paths]



/-! ### Pruner and path claims -/

/-- Claim C10: when a Path's driver is already set, `setSigSource` with
`allowOverwrite = false` leaves the Path completely unchanged; the driver
field is written exactly when it is unset or overwriting is allowed. -/
theorem claim10_first_driver_wins (p : Path) (s : Port) (allow : Bool) :
    (p.sigSource.isSome = true → allow = false → p.setSigSource s allow = p) ∧
    (p.sigSource = none ∨ allow = true → (p.setSigSource s allow).sigSource = some s) := by
  constructor
  · intro h1 h2
    subst h2
    simp [Path.setSigSource, h1]
  · intro h
    rcases h with h | h
    · simp [Path.setSigSource, h]
    · subst h
      simp [Path.setSigSource]

theorem claim10_first_driver_wins_witness :
    (drivenPath.sigSource.isSome = true ∧
      drivenPath.setSigSource otherDriver false = drivenPath) ∧
    (drivenPath.sigSource = none ∨ true = true) ∧
    (drivenPath.setSigSource otherDriver true).sigSource = some otherDriver :=
  ⟨⟨rfl, (claim10_first_driver_wins drivenPath otherDriver false).1 rfl rfl⟩,
    Or.inr rfl,
    (claim10_first_driver_wins drivenPath otherDriver true).2 (Or.inr rfl)⟩

/-- Claim C9: the dangling-path pruner is idempotent: pruning twice yields the
same module (in particular the same path set) as pruning once. -/
theorem claim9_pruner_idempotent (m : Module) :
    removeUnconnectedPaths (removeUnconnectedPaths m) = removeUnconnectedPaths m := by
  rw [removeUnconnectedPaths_eq_filter m, removeUnconnectedPaths_eq_filter]
  simp [List.filter_filter]

/-- Claim C6 counterexample: a path that has a driver (but no consumer and no
no-connect bit) does NOT survive pruning, contradicting the claim that every
path with a driver or with a consumer survives. -/
theorem claim6_counterexample :
    (driverOnlyModule.paths.getD 0 (mkPath "" [] true)).sigSource.isSome = true ∧
    (removeUnconnectedPaths driverOnlyModule).paths = [] := by
  constructor
  · rfl
  · decide

/-- Claim C6 (amended): the pruner removes exactly those paths that lack a
driver OR lack any consumer, unless the path's bit-sequence contains a
no-connect marker; a path survives iff it has both a driver and at least one
consumer, or carries a no-connect bit. -/
theorem claim6_pruner_amended (m : Module) :
    (removeUnconnectedPaths m).paths
      = m.paths.filter
          (fun p => (p.sigSource.isSome && !p.sigDestinations.isEmpty)
            || hasNoConnectBits p.bits) := by
  rw [removeUnconnectedPaths_eq_filter]
  rfl

/-! ### Module-loop error handling -/

/-- Claim C5 counterexample: a module failing per-module validation (here: no
ports and no nodes) aborts the entire parse; its valid sibling is never
processed, although parsed alone it would be accepted. -/
theorem claim5_counterexample :
    parseModules [("m1", emptyInputModule), ("m2", goodSiblingModule)] []
      = Except.error "Error while parsing m1: Module has no Ports or Nodes" ∧
    (processModule "m2" goodSiblingModule []).isOk = true := by
  constructor
  · rfl
  · decide

/-- Claim C5 (amended): a per-module validation failure raises an error that
carries the module name and a human-readable reason, and the error aborts the
whole parse: no later sibling module is processed. -/
theorem claim5_amended (name : String) (m0 : Module) (tmap : TransMap)
    (rest : List (String × Module)) (e : String) :
    ((m0.ports.isEmpty && m0.nodes.isEmpty) = true →
      processModule name m0 tmap
        = Except.error ("Error while parsing " ++ name ++ ": Module has no Ports or Nodes")) ∧
    (processModule name m0 tmap = Except.error e →
      parseModules ((name, m0) :: rest) tmap = Except.error e) := by
  constructor
  · intro h
    simp [processModule, h]
  · intro h
    simp [parseModules, h]

theorem claim5_amended_witness :
    ((emptyInputModule.ports.isEmpty && emptyInputModule.nodes.isEmpty) = true ∧
      processModule "m1" emptyInputModule []
        = Except.error ("Error while parsing " ++ "m1" ++ ": Module has no Ports or Nodes")) ∧
    parseModules [("m1", emptyInputModule), ("m2", goodSiblingModule)] []
      = Except.error "Error while parsing m1: Module has no Ports or Nodes" :=
  ⟨⟨rfl,
    (claim5_amended "m1" emptyInputModule [] [("m2", goodSiblingModule)]
      "Error while parsing m1: Module has no Ports or Nodes").1 rfl⟩,
    (claim5_amended "m1" emptyInputModule [] [("m2", goodSiblingModule)]
      "Error while parsing m1: Module has no Ports or Nodes").2 (by rfl)⟩

/-! ### Bit segmentation claims -/

/-- Claim C2: concatenating the runs emitted by `splitBits` in ascending range
order reproduces the input exactly; every run is nonempty and homogeneous (its
first bit is constant iff every bit is), adjacent runs differ in
classification, and the emitted order is ascending range order. -/
theorem claim2_segmentation (bits : List String) :
    ((splitBits bits).map (fun r => r.2)).flatten = bits ∧
    (∀ r ∈ splitBits bits, r.2 ≠ [] ∧
      ∀ b ∈ r.2, isConstBit b = isConstBit (r.2.headD "")) ∧
    (∀ i, i + 1 < (splitBits bits).length →
      isConstBit (((splitBits bits).getD (i+1) ((0,0),[])).2.headD "")
        ≠ isConstBit (((splitBits bits).getD i ((0,0),[])).2.headD "") ∧
      ((splitBits bits).getD i ((0,0),[])).1.1
        < ((splitBits bits).getD (i+1) ((0,0),[])).1.1) := by
  obtain ⟨h1, h2⟩ := runsFrom_facts (splitBits_runs bits)
  exact ⟨splitBits_join bits, h1, h2⟩

theorem claim2_segmentation_witness :
    (((0,0), ["0"]) ∈ splitBits ["0", "n5", "1"] ∧
      (((0,0), ["0"]) : (Nat × Nat) × List String).2 ≠ [] ∧
      ∀ b ∈ (((0,0), ["0"]) : (Nat × Nat) × List String).2,
        isConstBit b = isConstBit ((((0,0), ["0"]) : (Nat × Nat) × List String).2.headD "")) ∧
    (0 + 1 < (splitBits ["0", "n5", "1"]).length ∧
      isConstBit (((splitBits ["0", "n5", "1"]).getD 1 ((0,0),[])).2.headD "")
        ≠ isConstBit (((splitBits ["0", "n5", "1"]).getD 0 ((0,0),[])).2.headD "") ∧
      ((splitBits ["0", "n5", "1"]).getD 0 ((0,0),[])).1.1
        < ((splitBits ["0", "n5", "1"]).getD 1 ((0,0),[])).1.1) :=
  ⟨⟨by decide,
    (claim2_segmentation ["0", "n5", "1"]).2.1 ((0,0), ["0"]) (by decide)⟩,
   ⟨by decide,
    (claim2_segmentation ["0", "n5", "1"]).2.2 0 (by decide)⟩⟩

/-! ### Signal stitcher claims -/

/-- Claim C7 counterexample: a netname is declared for the pre-materialization
bits `["0","1"]` of a CONST port (recorded in the translation table with value
equal to the port's bits `["6","7"]`), yet the created path is named
`b_const_sig` with a hidden name, and no alternates are recorded — the claimed
pre-materialization lookup does not happen. -/
theorem claim7_counterexample :
    (Module.getNetnameByBits c7Netnames ["0", "1"]).isSome = true ∧
    c7TransMap = [(["0", "1"], c7ConstPort.bits)] ∧
    (connectSignalSrcConnections [c7ConstPort] c7TransMap c7Netnames).map
        (fun p => (p.name, p.hiddenName, p.alternativeNames))
      = [("b_const_sig", true, [])] ∧
    ("b_const_sig" : String) ≠ "w" := by
  refine ⟨rfl, rfl, ?_, by decide⟩
  decide

/-- Claim C7 (amended): for every driver port the stitcher creates exactly one
path carrying the port's bits, with the port attached as driver, with NO
alternates recorded, and with name and hidden flag given by `stitchedNameRef`:
a non-CONST port's bits are looked up directly against the netnames (name and
hidden flag taken from a hit, `<port>_sig`/hidden otherwise), while a CONST
port's own bits are used as the translation-table key and a table hit queries
the netnames with the table's post-materialization value — the
pre-materialization bit-sequence is never recovered. -/
theorem claim7_stitcher_amended (srcPorts : List Port) (tmap : TransMap)
    (nns : List Netname) :
    connectSignalSrcConnections srcPorts tmap nns
      = srcPorts.map (fun p =>
          Path.mk (stitchedNameRef p tmap nns).1 p.bits.length p.bits
            (stitchedNameRef p tmap nns).2 (some p) [] []) := by
  unfold connectSignalSrcConnections stitchedNameRef
  refine List.map_congr_left ?_
  intro p _
  by_cases hc : p.direction = EDirection.CONST
  · simp only [hc, if_true]
    rcases h1 : tmap.find? (fun kv => kv.1 == p.bits) with _ | kv
    · simp [mkPath, Path.setSigSource]
    · rcases h2 : Module.getNetnameByBits nns kv.2 with _ | nn
      · simp [mkPath, Path.setSigSource]
      · simp [mkPath, Path.setSigSource]
  · simp only [hc, if_false]
    rcases h2 : Module.getNetnameByBits nns p.bits with _ | nn
    · simp [mkPath, Path.setSigSource]
    · simp [mkPath, Path.setSigSource]

/-! ### Scenario-B pipeline claims -/

/-- Claim C1 counterexample: for the scenario-B module the pipeline accepts
the module but produces THREE paths, not the claimed two — the 4-bit source
path feeding the split node's `in` port exists alongside the two 2-bit sink
paths. -/
theorem claim1_counterexample :
    (processModule "top" c1In []).isOk = true ∧
    c1Out.paths.length = 3 ∧
    ¬ (c1Out.paths.length = 2) := by
  refine ⟨by decide, by decide, by decide⟩

/-- Claim C1 (amended): the pipeline on the scenario-B module produces exactly
one synthetic node, of type "split", with one INPUT port `in` carrying the
4-bit source bit-sequence and OUTPUT ports `out0`/`out1` carrying the two sink
bit-sequences; the accepted module contains exactly three paths: the 4-bit
source path (consumed by the split node's `in` port) and the two 2-bit sink
paths. -/
theorem claim1_amended :
    (processModule "top" c1In []).isOk = true ∧
    c1Out.nodes = [Node.mk "split0" "split"
      [Port.mk "in" EDirection.INPUT ["n1", "n2", "n3", "n4"] 0,
       Port.mk "out0" EDirection.OUTPUT ["n1", "n2"] 0,
       Port.mk "out1" EDirection.OUTPUT ["n3", "n4"] 0]] ∧
    c1Out.paths.map (fun p => p.bits)
      = [["n1", "n2", "n3", "n4"], ["n1", "n2"], ["n3", "n4"]] ∧
    c1Out.paths.map (fun p => (p.sigDestinations.map (fun d => d.name)))
      = [["in"], ["b1"], ["b2"]] ∧
    c1Out.paths.length = 3 := by
  refine ⟨by decide, by decide, by decide, by decide, by decide⟩

/-! ### Single-claim property of the destination stitcher -/

theorem findPathIdx_lt {ps : List Path} {b : List String} {i : Nat}
    (h : findPathIdxByBits ps b = some i) : i < ps.length :=
  (List.findIdx?_eq_some_iff_findIdx_eq.mp h).1

/-- `Module::getPathByBits` depends only on the paths' bit-sequences. -/
theorem findPathIdx_congr :
    ∀ {ps qs : List Path}, ps.length = qs.length →
      (∀ j, (ps.getD j (mkPath "" [] true)).bits = (qs.getD j (mkPath "" [] true)).bits) →
      ∀ b, findPathIdxByBits ps b = findPathIdxByBits qs b := by
  intro ps
  induction ps with
  | nil =>
    intro qs hlen _ b
    match qs, hlen with
    | [], _ => rfl
  | cons p pt ih =>
    intro qs hlen hbits b
    match qs, hlen with
    | q :: qt, hlen =>
      have h0 : p.bits = q.bits := hbits 0
      have htail : findPathIdxByBits pt b = findPathIdxByBits qt b :=
        ih (by simpa using hlen) (fun j => hbits (j + 1)) b
      simp only [findPathIdxByBits, List.findIdx?_cons, h0] at *
      by_cases hq : (q.bits == b) = true
      · simp [hq]
      · simp only [hq, if_false, List.findIdx?_start_succ]
        rw [htail]

/-- Characterization of `connectSignalDestConnections`: the path list keeps
its length and bit-sequences, and each path's destination list is extended by
exactly those consumer ports whose bits select it as the FIRST matching path. -/
theorem connectSignalDestConnections_spec (ds : List Port) :
    ∀ (paths : List Path),
      (connectSignalDestConnections paths ds).length = paths.length ∧
      (∀ j, ((connectSignalDestConnections paths ds).getD j (mkPath "" [] true)).bits
          = (paths.getD j (mkPath "" [] true)).bits) ∧
      (∀ j, j < paths.length →
        ((connectSignalDestConnections paths ds).getD j (mkPath "" [] true)).sigDestinations
          = (paths.getD j (mkPath "" [] true)).sigDestinations
            ++ ds.filter (fun x => findPathIdxByBits paths x.bits == some j)) := by
  induction ds with
  | nil =>
    intro paths
    exact ⟨rfl, fun _ => rfl, fun j _ => by simp [connectSignalDestConnections]⟩
  | cons d ds ih =>
    intro paths
    have hstep : connectSignalDestConnections paths (d :: ds)
        = connectSignalDestConnections
            (match findPathIdxByBits paths d.bits with
             | none => paths
             | some i => paths.set i
                 ((paths.getD i (mkPath "" [] true)).addSigDestination d)) ds := by
      rcases h : findPathIdxByBits paths d.bits with _ | i <;>
        simp [connectSignalDestConnections, h]
    rcases hfind : findPathIdxByBits paths d.bits with _ | i
    · rw [hfind] at hstep
      obtain ⟨ihlen, ihbits, ihdst⟩ := ih paths
      refine ⟨by rw [hstep]; exact ihlen, by rw [hstep]; exact ihbits, ?_⟩
      intro j hj
      rw [hstep, ihdst j hj]
      have hpred : (findPathIdxByBits paths d.bits == some j) = false := by
        rw [hfind]; rfl
      simp [List.filter_cons, hpred]
    · rw [hfind] at hstep
      have hi : i < paths.length := findPathIdx_lt hfind
      set paths1 := paths.set i ((paths.getD i (mkPath "" [] true)).addSigDestination d)
        with hp1
      have hlen1 : paths1.length = paths.length := by simp [hp1]
      have hbits1 : ∀ j, (paths1.getD j (mkPath "" [] true)).bits
          = (paths.getD j (mkPath "" [] true)).bits := by
        intro j
        by_cases hij : i = j
        · subst hij
          simp only [hp1, List.getD_eq_getElem?_getD, List.getElem?_set_self hi]
          rfl
        · simp only [hp1, List.getD_eq_getElem?_getD, List.getElem?_set_ne hij]
      have hfind1 : ∀ b, findPathIdxByBits paths1 b = findPathIdxByBits paths b :=
        findPathIdx_congr hlen1 hbits1
      obtain ⟨ihlen, ihbits, ihdst⟩ := ih paths1
      refine ⟨?_, ?_, ?_⟩
      · rw [hstep]; rw [ihlen, hlen1]
      · intro j
        rw [hstep, ihbits j, hbits1 j]
      · intro j hj
        rw [hstep, ihdst j (by rw [hlen1]; exact hj)]
        have hfilter : ds.filter (fun x => findPathIdxByBits paths1 x.bits == some j)
            = ds.filter (fun x => findPathIdxByBits paths x.bits == some j) := by
          apply List.filter_congr
          intro x _
          rw [hfind1 x.bits]
        rw [hfilter]
        by_cases hij : i = j
        · subst hij
          have hdst1 : (paths1.getD i (mkPath "" [] true)).sigDestinations
              = (paths.getD i (mkPath "" [] true)).sigDestinations ++ [d] := by
            simp only [hp1, List.getD_eq_getElem?_getD, List.getElem?_set_self hi]
            rfl
          have hpred : (findPathIdxByBits paths d.bits == some i) = true := by
            rw [hfind]; exact beq_self_eq_true (some i)
          rw [hdst1]
          simp [List.filter_cons, hpred]
        · have hdst1 : (paths1.getD j (mkPath "" [] true)).sigDestinations
              = (paths.getD j (mkPath "" [] true)).sigDestinations := by
            simp only [hp1, List.getD_eq_getElem?_getD, List.getElem?_set_ne hij]
          have hpred : (findPathIdxByBits paths d.bits == some j) = false := by
            rw [hfind]
            simp [hij]
          rw [hdst1]
          simp [List.filter_cons, hpred]

/-- Claim C8: starting from paths with empty destination lists (as the source
stitcher creates them), `connectSignalDestConnections` attaches each consumer
port to at most one path: the same consumer cannot end up in the destination
lists of two different paths. -/
theorem claim8_single_claim (paths : List Path) (destPorts : List Port)
    (hinit : ∀ p ∈ paths, p.sigDestinations = []) (d : Port) (i j : Nat)
    (hdi : d ∈ ((connectSignalDestConnections paths destPorts).getD i
        (mkPath "" [] true)).sigDestinations)
    (hdj : d ∈ ((connectSignalDestConnections paths destPorts).getD j
        (mkPath "" [] true)).sigDestinations) :
    i = j := by
  obtain ⟨hlen, _, hdst⟩ := connectSignalDestConnections_spec destPorts paths
  have key : ∀ k, d ∈ ((connectSignalDestConnections paths destPorts).getD k
      (mkPath "" [] true)).sigDestinations →
      findPathIdxByBits paths d.bits = some k := by
    intro k hk
    by_cases hklen : k < paths.length
    · rw [hdst k hklen] at hk
      have hmem : paths.getD k (mkPath "" [] true) ∈ paths := by
        rw [List.getD_eq_getElem?_getD, List.getElem?_eq_getElem hklen]
        exact List.getElem_mem hklen
      rw [hinit _ hmem] at hk
      simp only [List.nil_append] at hk
      have := List.mem_filter.mp hk
      exact eq_of_beq this.2
    · exfalso
      have hnone : (connectSignalDestConnections paths destPorts).getD k
          (mkPath "" [] true) = mkPath "" [] true := by
        rw [List.getD_eq_getElem?_getD, List.getElem?_eq_none]
        · rfl
        · rw [hlen]; omega
      rw [hnone] at hk
      simp [mkPath] at hk
  have h1 := key i hdi
  have h2 := key j hdj
  rw [h1] at h2
  exact (Option.some_inj.mp h2)

theorem claim8_single_claim_witness :
    (∀ p ∈ c8Paths, p.sigDestinations = []) ∧
    c8Dest ∈ ((connectSignalDestConnections c8Paths [c8Dest]).getD 0
        (mkPath "" [] true)).sigDestinations ∧
    (0 : Nat) = 0 :=
  ⟨by decide, by decide,
    claim8_single_claim c8Paths [c8Dest] (by decide) c8Dest 0 0 (by decide) (by decide)⟩

/-! ### Resolver termination -/

theorem tasksWeight_cons (len : Nat) (t : Task) (ts : List Task) :
    tasksWeight len (t :: ts) = taskWeight len t + tasksWeight len ts := by
  simp [tasksWeight]

theorem taskWeight_pos (len : Nat) (t : Task) : 1 ≤ taskWeight len t := by
  unfold taskWeight
  split
  · omega
  · omega

theorem tasksWeight_eq_zero_iff (len : Nat) (ts : List Task) :
    tasksWeight len ts = 0 ↔ ts = [] := by
  cases ts with
  | nil => simp [tasksWeight]
  | cons t ts =>
    rw [tasksWeight_cons]
    have := taskWeight_pos len t
    simp only [iff_false, List.cons_ne_nil]
    omega

theorem listMid_length_le (l : List String) (pos len : Int) :
    (listMid l pos len).length ≤ l.length := by
  unfold listMid
  split
  · simp
  · calc ((l.drop pos.toNat).take len.toNat).length
        ≤ (l.drop pos.toNat).length := by
          rw [List.length_take]; omega
      _ ≤ l.length := by rw [List.length_drop]; omega

theorem listMid_length_le_arg (l : List String) (pos len : Int) (h : 0 ≤ len) :
    (listMid l pos len).length ≤ len.toNat := by
  unfold listMid
  rw [if_neg (by omega)]
  rw [List.length_take]
  omega

/-- A discarded task (failing the guard) weighs `1`, which is strictly less
than the weight of any task passing the guard. -/
theorem taskWeight_discard (len : Nat) (t : Task)
    (h : (len : Int) ≤ t.startIdx ∨ t.endIdx - t.startIdx < 1) :
    taskWeight len t = 1 := by
  unfold taskWeight
  rw [if_pos h]

theorem taskWeight_active (len : Nat) (t : Task)
    (h : ¬((len : Int) ≤ t.startIdx ∨ t.endIdx - t.startIdx < 1)) :
    taskWeight len t
      = ((len : Int) + 1 - t.startIdx).toNat * (len + 2) + t.querryBits.length + 2 := by
  unfold taskWeight
  rw [if_neg h]

theorem taskWeight_active_ge (len : Nat) (t : Task)
    (h : ¬((len : Int) ≤ t.startIdx ∨ t.endIdx - t.startIdx < 1)) :
    2 * (len + 2) + 2 ≤ taskWeight len t := by
  rw [taskWeight_active len t h]
  have hA : 2 ≤ ((len : Int) + 1 - t.startIdx).toNat := by omega
  have := Nat.mul_le_mul_right (len + 2) hA
  omega

/-- The remainder task `(endIdx, |toSolve|, toSolve.mid(endIdx, ...))` pushed
by the three match branches weighs strictly less than the popped task. -/
theorem taskWeight_remainder_lt (toSolve : List String) (t : Task)
    (h : ¬((toSolve.length : Int) ≤ t.startIdx ∨ t.endIdx - t.startIdx < 1)) :
    taskWeight toSolve.length
        (Task.mk t.endIdx (toSolve.length : Int)
          (listMid toSolve t.endIdx ((toSolve.length : Int) - t.endIdx)))
      < taskWeight toSolve.length t := by
  set len := toSolve.length with hlen
  by_cases hdisc : (len : Int) ≤ t.endIdx ∨ ((len : Int) - t.endIdx) < 1
  · rw [taskWeight_discard len _ (by simpa using hdisc)]
    have := taskWeight_active_ge len t h
    omega
  · rw [taskWeight_active len _ (by simpa using hdisc), taskWeight_active len t h]
    dsimp only
    have hBA : ((len : Int) + 1 - t.endIdx).toNat + 1
        ≤ ((len : Int) + 1 - t.startIdx).toNat := by omega
    have hmul := Nat.mul_le_mul_right (len + 2) hBA
    rw [Nat.add_mul, Nat.one_mul] at hmul
    have hq : (listMid toSolve t.endIdx ((len : Int) - t.endIdx)).length ≤ len := by
      rw [hlen]; exact listMid_length_le toSolve _ _
    set a := ((len : Int) + 1 - t.startIdx).toNat * (len + 2)
    set b := ((len : Int) + 1 - t.endIdx).toNat * (len + 2)
    omega

/-- The shrink task `(startIdx, startIdx + |Q| - 1, toSolve.mid(startIdx, |Q|-1))`
pushed by the fallback branch weighs strictly less than the popped task. -/
theorem taskWeight_shrink_lt (toSolve : List String) (t : Task)
    (h : ¬((toSolve.length : Int) ≤ t.startIdx ∨ t.endIdx - t.startIdx < 1)) :
    taskWeight toSolve.length
        (Task.mk t.startIdx (t.startIdx + (t.querryBits.length : Int) - 1)
          (listMid toSolve t.startIdx ((t.querryBits.length : Int) - 1)))
      < taskWeight toSolve.length t := by
  set len := toSolve.length with hlen
  by_cases hq1 : t.querryBits.length ≤ 1
  · have hdisc : (len : Int) ≤ t.startIdx ∨
        (t.startIdx + (t.querryBits.length : Int) - 1) - t.startIdx < 1 := by
      right; omega
    rw [taskWeight_discard len _ (by simpa using hdisc)]
    have := taskWeight_active_ge len t h
    omega
  · have hndisc : ¬((len : Int) ≤ t.startIdx ∨
        (t.startIdx + (t.querryBits.length : Int) - 1) - t.startIdx < 1) := by
      push_neg at h ⊢
      constructor
      · exact h.1
      · omega
    rw [taskWeight_active len _ (by simpa using hndisc), taskWeight_active len t h]
    dsimp only
    have hqr : (listMid toSolve t.startIdx ((t.querryBits.length : Int) - 1)).length
        ≤ ((t.querryBits.length : Int) - 1).toNat :=
      listMid_length_le_arg toSolve _ _ (by omega)
    set a := ((len : Int) + 1 - t.startIdx).toNat * (len + 2)
    omega

theorem innerStep_eq_none_iff (toSolve : List String) (s : SJInnerState) :
    innerStep toSolve s = none ↔ s.tasks = [] := by
  rcases s with ⟨tasks, src, sp, jn⟩
  cases tasks with
  | nil => simp [innerStep]
  | cons current rest => simp [innerStep]

/-- Every executed inner iteration strictly decreases the stack weight. -/
theorem innerStep_decreases (toSolve : List String) (s s1 : SJInnerState)
    (h : innerStep toSolve s = some s1) :
    tasksWeight toSolve.length s1.tasks < tasksWeight toSolve.length s.tasks := by
  rcases s with ⟨tasks, src, sp, jn⟩
  cases tasks with
  | nil => simp [innerStep] at h
  | cons current rest =>
    simp only [innerStep, Option.some.injEq] at h
    have hpos := taskWeight_pos toSolve.length current
    split at h
    · -- guard: task discarded
      subst h
      dsimp only
      rw [tasksWeight_cons]
      omega
    · split at h
      · -- exact source match: remainder pushed
        subst h
        dsimp only
        rw [tasksWeight_cons, tasksWeight_cons]
        have hlt := taskWeight_remainder_lt toSolve current (by assumption)
        omega
      · split at h
        · -- sub-sequence source match: remainder pushed
          subst h
          dsimp only
          rw [tasksWeight_cons, tasksWeight_cons]
          have hlt := taskWeight_remainder_lt toSolve current (by assumption)
          omega
        · split at h
          · -- dead sink-pool branch
            exact absurd rfl (by assumption)
          · -- shrink
            subst h
            dsimp only
            rw [tasksWeight_cons, tasksWeight_cons]
            have hlt := taskWeight_shrink_lt toSolve current (by assumption)
            omega

/-- With fuel at least the stack weight, the inner loop empties its stack. -/
theorem runInner_empties (toSolve : List String) :
    ∀ (fuel : Nat) (s : SJInnerState),
      tasksWeight toSolve.length s.tasks ≤ fuel →
      (runInner toSolve fuel s).tasks = [] := by
  intro fuel
  induction fuel with
  | zero =>
    intro s hle
    have := (tasksWeight_eq_zero_iff toSolve.length s.tasks).mp (by omega)
    simpa [runInner] using this
  | succ n ih =>
    intro s hle
    rcases h : innerStep toSolve s with _ | s1
    · have hnil := (innerStep_eq_none_iff toSolve s).mp h
      simp [runInner, h, hnil]
    · have hdec := innerStep_decreases toSolve s s1 h
      simp only [runInner, h]
      exact ih s1 (by omega)

theorem outerStep_eq_none_iff (toSolve : List String) (s : SJState) :
    outerStep toSolve s = none ↔ s.tasks = [] := by
  rcases s with ⟨tasks, src, dst, sp, jn⟩
  cases tasks with
  | nil => simp [outerStep]
  | cons current rest => simp [outerStep]

/-- Every executed outer iteration strictly decreases the stack weight. -/
theorem outerStep_decreases (toSolve : List String) (s s1 : SJState)
    (h : outerStep toSolve s = some s1) :
    tasksWeight toSolve.length s1.tasks < tasksWeight toSolve.length s.tasks := by
  rcases s with ⟨tasks, src, dst, sp, jn⟩
  cases tasks with
  | nil => simp [outerStep] at h
  | cons current rest =>
    simp only [outerStep, Option.some.injEq] at h
    have hpos := taskWeight_pos toSolve.length current
    split at h
    · subst h; dsimp only
      rw [tasksWeight_cons]
      omega
    · split at h
      · subst h; dsimp only
        rw [tasksWeight_cons, tasksWeight_cons]
        have hlt := taskWeight_remainder_lt toSolve current (by assumption)
        omega
      · split at h
        · subst h; dsimp only
          rw [tasksWeight_cons, tasksWeight_cons]
          have hlt := taskWeight_remainder_lt toSolve current (by assumption)
          omega
        · split at h
          · -- sink-pool branch: conditional remainder push
            subst h
            dsimp only
            split
            · rw [tasksWeight_cons, tasksWeight_cons]
              have hlt := taskWeight_remainder_lt toSolve current (by assumption)
              omega
            · rw [tasksWeight_cons]
              omega
          · subst h; dsimp only
            rw [tasksWeight_cons, tasksWeight_cons]
            have hlt := taskWeight_shrink_lt toSolve current (by assumption)
            omega

/-- With fuel at least the stack weight, the outer loop empties its stack. -/
theorem runOuter_empties (toSolve : List String) :
    ∀ (fuel : Nat) (s : SJState),
      tasksWeight toSolve.length s.tasks ≤ fuel →
      (runOuter toSolve fuel s).tasks = [] := by
  intro fuel
  induction fuel with
  | zero =>
    intro s hle
    have := (tasksWeight_eq_zero_iff toSolve.length s.tasks).mp (by omega)
    simpa [runOuter] using this
  | succ n ih =>
    intro s hle
    rcases h : outerStep toSolve s with _ | s1
    · have hnil := (outerStep_eq_none_iff toSolve s).mp h
      simp [runOuter, h, hnil]
    · have hdec := outerStep_decreases toSolve s s1 h
      simp only [runOuter, h]
      exact ih s1 (by omega)

/-- When a 1-bit query matches neither the source pool (exactly or as a
sub-sequence) nor the sink pool, the loop pushes a degenerate shrink task that
the very next iteration discards: after two steps the stack has simply moved
on and no split/join information or source was recorded — the bit is left
unresolved without error. -/
theorem outerStep_one_bit_unresolved (toSolve : List String) (current : Task)
    (rest : List Task) (src dst : List (List String)) (sp jn : InfoMap)
    (h1 : current.querryBits.length = 1)
    (hg : ¬((toSolve.length : Int) ≤ current.startIdx ∨
        current.endIdx - current.startIdx < 1))
    (hcont : src.contains current.querryBits = false)
    (hidx : indexOfContains src current.querryBits = -1)
    (hdst : indexOfContains (removeFirstEq dst toSolve) current.querryBits = -1) :
    ∃ s1 s2 : SJState,
      outerStep toSolve (SJState.mk (current :: rest) src dst sp jn) = some s1 ∧
      outerStep toSolve s1 = some s2 ∧
      s2.tasks = rest ∧ s2.srcPorts = src ∧ s2.splitInfo = sp ∧ s2.joinInfo = jn := by
  have hmem : current.querryBits ∉ src := by simpa using hcont
  have hs1 : outerStep toSolve (SJState.mk (current :: rest) src dst sp jn)
      = some (SJState.mk
          (Task.mk current.startIdx
              (current.startIdx + (current.querryBits.length : Int) - 1)
              (listMid toSolve current.startIdx ((current.querryBits.length : Int) - 1))
            :: rest)
          src (removeFirstEq dst toSolve) sp jn) := by
    simp [outerStep, hg, hmem, hidx, hdst]
  have hg2 : ((toSolve.length : Int) ≤ current.startIdx ∨
      (current.startIdx + (current.querryBits.length : Int) - 1) - current.startIdx < 1) := by
    right
    rw [h1]
    omega
  have hs2 : outerStep toSolve (SJState.mk
        (Task.mk current.startIdx
            (current.startIdx + (current.querryBits.length : Int) - 1)
            (listMid toSolve current.startIdx ((current.querryBits.length : Int) - 1))
          :: rest)
        src (removeFirstEq dst toSolve) sp jn)
      = some (SJState.mk rest src
          (removeFirstEq (removeFirstEq dst toSolve) toSolve) sp jn) := by
    simp [outerStep, hg2]
  exact ⟨_, _, hs1, hs2, rfl, rfl, rfl, rfl⟩

/-- Claim C4: the resolver terminates on every input.  Running the outer
worklist with fuel equal to the stack weight empties the worklist (so
`createSplitJoin`, seeded with a single task, finishes after finitely many
iterations); the same holds for the inner run; the sink-pool test against the
empty scratch pool always fails, so the recursive call cannot recurse further;
and an unmatched 1-bit query is simply discarded, leaving the info maps and
source pool unchanged. -/
theorem claim4_resolver_terminates :
    (∀ (toSolve : List String) (s : SJState),
      (runOuter toSolve (tasksWeight toSolve.length s.tasks) s).tasks = []) ∧
    (∀ (toSolve : List String) (s : SJInnerState),
      (runInner toSolve (tasksWeight toSolve.length s.tasks) s).tasks = []) ∧
    (∀ q : List String, indexOfContains [] q = -1) ∧
    (∀ (toSolve : List String) (current : Task) (rest : List Task)
        (src dst : List (List String)) (sp jn : InfoMap),
      current.querryBits.length = 1 →
      ¬((toSolve.length : Int) ≤ current.startIdx ∨
          current.endIdx - current.startIdx < 1) →
      src.contains current.querryBits = false →
      indexOfContains src current.querryBits = -1 →
      indexOfContains (removeFirstEq dst toSolve) current.querryBits = -1 →
      ∃ s1 s2 : SJState,
        outerStep toSolve (SJState.mk (current :: rest) src dst sp jn) = some s1 ∧
        outerStep toSolve s1 = some s2 ∧
        s2.tasks = rest ∧ s2.srcPorts = src ∧ s2.splitInfo = sp ∧ s2.joinInfo = jn) :=
  ⟨fun toSolve s => runOuter_empties toSolve _ s le_rfl,
   fun toSolve s => runInner_empties toSolve _ s le_rfl,
   fun _ => rfl,
   fun toSolve current rest src dst sp jn h1 hg hcont hidx hdst =>
     outerStep_one_bit_unresolved toSolve current rest src dst sp jn
       h1 hg hcont hidx hdst⟩

theorem claim4_resolver_terminates_witness :
    (runOuter ["a"]
        (tasksWeight (["a"] : List String).length [Task.mk 0 1 ["a"]])
        (SJState.mk [Task.mk 0 1 ["a"]] [] [] [] [])).tasks = [] ∧
    ((Task.mk 0 1 ["a"]).querryBits.length = 1 ∧
      ¬(((["a"] : List String).length : Int) ≤ (Task.mk 0 1 ["a"]).startIdx ∨
          (Task.mk 0 1 ["a"]).endIdx - (Task.mk 0 1 ["a"]).startIdx < 1)) ∧
    (∃ s1 s2 : SJState,
      outerStep ["a"] (SJState.mk [Task.mk 0 1 ["a"]] [] [] [] []) = some s1 ∧
      outerStep ["a"] s1 = some s2 ∧
      s2.tasks = [] ∧ s2.srcPorts = [] ∧ s2.splitInfo = [] ∧ s2.joinInfo = []) :=
  ⟨claim4_resolver_terminates.1 ["a"] (SJState.mk [Task.mk 0 1 ["a"]] [] [] [] []),
   ⟨by decide, by decide⟩,
   claim4_resolver_terminates.2.2.2 ["a"] (Task.mk 0 1 ["a"]) [] [] [] [] []
     (by decide) (by decide) (by decide) (by decide) (by decide)⟩

/-! ### Constant materializer: reference-rewrite lemmas -/

theorem rewriteBitsRef_length (bits : List String) :
    ∀ c, (rewriteBitsRef bits c).1.length = bits.length := by
  induction bits with
  | nil => intro c; rfl
  | cons b rest ih =>
    intro c
    by_cases hb : isConstBit b = true
    · simp [rewriteBitsRef, hb, ih]
    · simp [rewriteBitsRef, hb, ih]

theorem rewriteBitsRef_snd (bits : List String) :
    ∀ c, (rewriteBitsRef bits c).2 = c + constCount bits := by
  induction bits with
  | nil => intro c; simp [rewriteBitsRef, constCount]
  | cons b rest ih =>
    intro c
    by_cases hb : isConstBit b = true
    · simp only [rewriteBitsRef, hb, if_true, ih, constCount, List.countP_cons_of_pos _ _ hb]
      omega
    · simp only [rewriteBitsRef, hb, Bool.false_eq_true, if_false, ih, constCount]
      rw [List.countP_cons_of_neg]
      simp [hb]

theorem rewriteBitsRef_append (u v : List String) :
    ∀ c, rewriteBitsRef (u ++ v) c
      = ((rewriteBitsRef u c).1 ++ (rewriteBitsRef v (rewriteBitsRef u c).2).1,
         (rewriteBitsRef v (rewriteBitsRef u c).2).2) := by
  induction u with
  | nil => intro c; simp [rewriteBitsRef]
  | cons b rest ih =>
    intro c
    by_cases hb : isConstBit b = true
    · simp [rewriteBitsRef, hb, ih]
    · simp [rewriteBitsRef, hb, ih]

theorem rewriteBitsRef_const_run (r : List String) (h : ∀ b ∈ r, isConstBit b = true) :
    ∀ c, rewriteBitsRef r c
      = ((List.range r.length).map (fun i => natToDecStr (c + 1 + i)), c + r.length) := by
  induction r with
  | nil => intro c; simp [rewriteBitsRef]
  | cons b rest ih =>
    intro c
    have hb : isConstBit b = true := h b (by simp)
    have ihr := ih (fun x hx => h x (by simp [hx])) (c + 1)
    simp only [rewriteBitsRef, hb, if_true, ihr, List.length_cons]
    rw [List.range_succ_eq_map, List.map_cons, List.map_map, Prod.mk.injEq]
    refine ⟨?_, by omega⟩
    rw [Nat.add_zero]
    congr 1
    apply List.map_congr_left
    intro i _
    simp only [Function.comp_apply, Nat.succ_eq_add_one]
    congr 1
    omega

theorem rewriteBitsRef_net_run (r : List String) (h : ∀ b ∈ r, isConstBit b = false) :
    ∀ c, rewriteBitsRef r c = (r, c) := by
  induction r with
  | nil => intro c; rfl
  | cons b rest ih =>
    intro c
    have hb : isConstBit b = false := h b (by simp)
    have ihr := ih (fun x hx => h x (by simp [hx])) c
    simp [rewriteBitsRef, hb, ihr]

theorem rewriteBitsRef_getD (bits : List String) :
    ∀ c j, j < bits.length →
      (rewriteBitsRef bits c).1.getD j ""
        = (if isConstBit (bits.getD j "") = true then
            natToDecStr (c + 1 + constCount (bits.take j))
          else bits.getD j "") := by
  induction bits with
  | nil => intro c j h; simp at h
  | cons b rest ih =>
    intro c j hj
    match j with
    | 0 =>
      by_cases hb : isConstBit b = true
      · simp [rewriteBitsRef, hb, constCount]
      · simp [rewriteBitsRef, hb]
    | Nat.succ j =>
      have hj' : j < rest.length := by simpa using hj
      by_cases hb : isConstBit b = true
      · simp only [rewriteBitsRef, hb, if_true, List.getD_cons_succ, List.take_succ_cons]
        rw [ih (c + 1) j hj']
        by_cases hcj : isConstBit (rest.getD j "") = true
        · rw [if_pos hcj, if_pos hcj]
          congr 1
          simp only [constCount, List.countP_cons_of_pos _ _ hb]
          omega
        · rw [if_neg hcj, if_neg hcj]
      · simp only [rewriteBitsRef, hb, Bool.false_eq_true, if_false,
          List.getD_cons_succ, List.take_succ_cons]
        rw [ih c j hj']
        by_cases hcj : isConstBit (rest.getD j "") = true
        · rw [if_pos hcj, if_pos hcj]
          congr 1
          simp only [constCount]
          rw [List.countP_cons_of_neg]
          simp [hb]
        · rw [if_neg hcj, if_neg hcj]

theorem foldl_fun_congr {α β : Type} {f g : α → β → α} (l : List β)
    (h : ∀ acc a, f acc a = g acc a) :
    ∀ init, l.foldl f init = l.foldl g init := by
  induction l with
  | nil => intro init; rfl
  | cons a t ih =>
    intro init
    rw [List.foldl_cons, List.foldl_cons, h init a, ih]

/-- Splicing `nw` over the sub-range occupied by `r` replaces `r` by `nw`. -/
theorem foldl_set_tokens (nw : List String) :
    ∀ (A r B : List String), r.length = nw.length →
      (List.range nw.length).foldl
          (fun acc i => acc.set (A.length + i) (nw.getD i "")) (A ++ (r ++ B))
        = A ++ (nw ++ B) := by
  induction nw with
  | nil =>
    intro A r B hlen
    have hr : r = [] := List.length_eq_zero.mp (by simpa using hlen)
    subst hr
    simp
  | cons y nw1 ih =>
    intro A r B hlen
    match r, hlen with
    | x :: r1, hlen =>
      have hlen1 : r1.length = nw1.length := by simpa using hlen
      simp only [List.length_cons]
      rw [List.range_succ_eq_map, List.foldl_cons]
      have h0 : (A ++ (x :: r1 ++ B)).set (A.length + 0) ((y :: nw1).getD 0 "")
          = (A ++ [y]) ++ (r1 ++ B) := by
        rw [Nat.add_zero, List.set_append_right _ _ (Nat.le_refl _)]
        simp
      rw [h0, List.foldl_map]
      have hfun : ∀ (acc : List String) (i : Nat),
          acc.set (A.length + Nat.succ i) ((y :: nw1).getD (Nat.succ i) "")
            = acc.set ((A ++ [y]).length + i) (nw1.getD i "") := by
        intro acc i
        simp only [List.getD_cons_succ, List.length_append, List.length_cons,
          List.length_nil]
        congr 1
        omega
      rw [foldl_fun_congr _ hfun, ih (A ++ [y]) r1 B hlen1]
      simp

/-- `Port::replaceBits` over the range of run `r` replaces it by `nw`. -/
theorem replaceBitsRange_spec (A r B nw : List String)
    (hlen : r.length = nw.length) (hne : 1 ≤ nw.length) :
    replaceBitsRange (A ++ (r ++ B)) A.length (A.length + nw.length - 1) nw
      = A ++ (nw ++ B) := by
  unfold replaceBitsRange
  have harith : A.length + nw.length - 1 + 1 - A.length = nw.length := by omega
  rw [harith]
  exact foldl_set_tokens nw A r B hlen

theorem isConstBit_eq_false_iff (b : String) :
    isConstBit b = false ↔ (b ≠ "0" ∧ b ≠ "1") := by
  simp [isConstBit, not_or]

/-- When the counter does not overflow, the wrapped token loop produces the
plain consecutive decimal tokens and advances the counter by the length. -/
theorem freshBitsLoop_no_wrap :
    ∀ (len c : Nat), c + len < u64Mod →
      freshBitsLoop c len
        = ((List.range len).map (fun i => natToDecStr (c + 1 + i)), c + len) := by
  intro len
  induction len with
  | zero => intro c h; simp [freshBitsLoop]
  | succ len ih =>
    intro c h
    have hc1 : (c + 1) % u64Mod = c + 1 := Nat.mod_eq_of_lt (by omega)
    rw [freshBitsLoop, hc1]
    simp only [ih (c + 1) (by omega)]
    rw [List.range_succ_eq_map, List.map_cons, List.map_map, Prod.mk.injEq]
    refine ⟨?_, by omega⟩
    rw [Nat.add_zero]
    congr 1
    apply List.map_congr_left
    intro i _
    simp only [Function.comp_apply]
    congr 1
    omega

/-- The run walk of `replaceConstBits` computes exactly the bitwise reference
rewrite on the unprocessed suffix, and creates exactly the reference CONST
ports, provided the `unsigned long long` counter does not overflow on the
pending constant bits. -/
theorem processRuns_eq (portName : String) :
    ∀ (runs : List ((Nat × Nat) × List String)) (done pend : List String) (c : Nat),
      RunsFrom done.length runs →
      (runs.map (fun r => r.2)).flatten = pend →
      c + constCount pend < u64Mod →
      processRuns portName runs (done ++ pend) c
        = (done ++ (rewriteBitsRef pend c).1,
           constPortsRef portName runs c,
           (rewriteBitsRef pend c).2) := by
  intro runs
  induction runs with
  | nil =>
    intro done pend c _ hp _
    subst hp
    simp [processRuns, rewriteBitsRef, constPortsRef]
  | cons run rest ih =>
    obtain ⟨⟨s, e⟩, r⟩ := run
    intro done pend c hruns hp hov
    obtain ⟨hs, hrne, he, hhom, hrest, _⟩ := hruns
    subst hp
    simp only [List.map_cons, List.flatten_cons]
    have hov' : c + constCount (r ++ (rest.map (fun x => x.2)).flatten)
        < u64Mod := by
      simp only [List.map_cons, List.flatten_cons] at hov
      exact hov
    have hccsplit : constCount (r ++ (rest.map (fun x => x.2)).flatten)
        = constCount r + constCount ((rest.map (fun x => x.2)).flatten) := by
      unfold constCount
      rw [List.countP_append]
    by_cases hc : isConstBit (r.headD "") = true
    · have hall : ∀ b ∈ r, isConstBit b = true := fun b hb => (hhom b hb).trans hc
      have hccr : constCount r = r.length := by
        unfold constCount
        exact List.countP_eq_length.mpr hall
      have hfb := freshBitsLoop_no_wrap r.length c (by omega)
      have hguard : ¬(r.headD "" ≠ "0" ∧ r.headD "" ≠ "1") := by
        intro hcon
        have := (isConstBit_eq_false_iff (r.headD "")).mpr hcon
        rw [this] at hc
        exact Bool.false_ne_true hc
      have hrlen : 1 ≤ r.length := by
        cases r with
        | nil => exact absurd rfl hrne
        | cons x xs => simp
      have hfl : ((List.range r.length).map
          (fun i => natToDecStr (c + 1 + i))).length = r.length := by simp
      have hsplice : replaceBitsRange
          (done ++ (r ++ (rest.map (fun x => x.2)).flatten)) s e
          ((List.range r.length).map (fun i => natToDecStr (c + 1 + i)))
        = done ++ ((List.range r.length).map (fun i => natToDecStr (c + 1 + i))
            ++ (rest.map (fun x => x.2)).flatten) := by
        have := replaceBitsRange_spec done r ((rest.map (fun x => x.2)).flatten)
          ((List.range r.length).map (fun i => natToDecStr (c + 1 + i)))
          hfl.symm (by omega)
        rw [hfl] at this
        rw [hs, he, this]
      have hihlen : (done ++ (List.range r.length).map
          (fun i => natToDecStr (c + 1 + i))).length = done.length + r.length := by
        simp
      have hihr := ih (done ++ (List.range r.length).map
          (fun i => natToDecStr (c + 1 + i)))
        ((rest.map (fun x => x.2)).flatten) (c + r.length)
        (by rw [hihlen]; exact hrest) rfl (by omega)
      have hrw : rewriteBitsRef (r ++ (rest.map (fun x => x.2)).flatten) c
          = ((List.range r.length).map (fun i => natToDecStr (c + 1 + i))
              ++ (rewriteBitsRef ((rest.map (fun x => x.2)).flatten) (c + r.length)).1,
             (rewriteBitsRef ((rest.map (fun x => x.2)).flatten) (c + r.length)).2) := by
        rw [rewriteBitsRef_append, rewriteBitsRef_const_run r hall]
      rw [processRuns, if_neg hguard]
      simp only [hfb]
      simp only [hsplice]
      rw [List.append_assoc] at hihr
      simp only [hihr, hrw]
      rw [constPortsRef, if_pos hc]
      simp [List.append_assoc]
    · have hcf : isConstBit (r.headD "") = false := by
        cases hx : isConstBit (r.headD "")
        · rfl
        · exact absurd hx hc
      have hall : ∀ b ∈ r, isConstBit b = false := fun b hb => (hhom b hb).trans hcf
      have hguard : (r.headD "" ≠ "0" ∧ r.headD "" ≠ "1") :=
        (isConstBit_eq_false_iff (r.headD "")).mp hcf
      have hihr := ih (done ++ r) ((rest.map (fun x => x.2)).flatten) c
        (by simpa using hrest) rfl (by omega)
      have hrw : rewriteBitsRef (r ++ (rest.map (fun x => x.2)).flatten) c
          = (r ++ (rewriteBitsRef ((rest.map (fun x => x.2)).flatten) c).1,
             (rewriteBitsRef ((rest.map (fun x => x.2)).flatten) c).2) := by
        rw [rewriteBitsRef_append, rewriteBitsRef_net_run r hall]
      rw [processRuns, if_pos hguard]
      rw [show done ++ (r ++ (rest.map (fun x => x.2)).flatten)
          = (done ++ r) ++ (rest.map (fun x => x.2)).flatten by
        rw [List.append_assoc]]
      simp only [hihr, hrw]
      rw [constPortsRef, if_neg (by rw [hcf]; exact Bool.false_ne_true)]
      simp [List.append_assoc]

theorem replaceConstBitsPort_eq (p : Port) (c : Nat)
    (hov : c + constCount p.bits < u64Mod) :
    replaceConstBitsPort p c
      = ({ p with bits := (rewriteBitsRef p.bits c).1 },
         constPortsRef p.name (splitBits p.bits) c,
         c + constCount p.bits) := by
  unfold replaceConstBitsPort
  have h := processRuns_eq p.name (splitBits p.bits) [] p.bits c
    (splitBits_runs p.bits) (splitBits_join p.bits) hov
  simp only [List.nil_append] at h
  rw [h, rewriteBitsRef_snd]

theorem processConstPortList_eq (dir : EDirection) :
    ∀ (ports : List Port) (c : Nat) (tmap : TransMap),
      c + portConstSum dir ports < u64Mod →
      (processConstPortList dir ports c tmap).1 = rewritePortsAll dir ports c ∧
      (processConstPortList dir ports c tmap).2.1 = constPortsAll dir ports c ∧
      (processConstPortList dir ports c tmap).2.2.1 = c + portConstSum dir ports := by
  intro ports
  induction ports with
  | nil =>
    intro c tmap _
    exact ⟨rfl, rfl, by simp [processConstPortList, portConstSum]⟩
  | cons p rest ih =>
    intro c tmap hov
    by_cases hq : p.direction = dir ∧ p.hasConstantBits = true
    · have hpcs : portConstSum dir (p :: rest)
          = constCount p.bits + portConstSum dir rest := by
        rw [portConstSum, if_pos hq]
      have hport := replaceConstBitsPort_eq p c (by omega)
      obtain ⟨ih1, ih2, ih3⟩ := ih (c + constCount p.bits)
        (mapAssign tmap p.bits (rewriteBitsRef p.bits c).1) (by omega)
      constructor
      · simp only [processConstPortList, if_pos hq, hport,
          rewritePortsAll, ih1]
      constructor
      · simp only [processConstPortList, if_pos hq, hport,
          constPortsAll, ih2]
      · simp only [processConstPortList, if_pos hq, hport,
          portConstSum, ih3, if_pos hq]
        omega
    · have hpcs : portConstSum dir (p :: rest) = 0 + portConstSum dir rest := by
        rw [portConstSum, if_neg hq]
      obtain ⟨ih1, ih2, ih3⟩ := ih c tmap (by omega)
      constructor
      · simp only [processConstPortList, if_neg hq, rewritePortsAll, ih1]
      constructor
      · simp only [processConstPortList, if_neg hq, constPortsAll, ih2]
      · simp only [processConstPortList, if_neg hq, portConstSum, ih3, if_neg hq]
        omega

theorem processNodesConst_eq :
    ∀ (nodes : List Node) (c : Nat) (tmap : TransMap),
      c + nodesConstSum nodes < u64Mod →
      (processNodesConst nodes c tmap).1 = rewriteNodesAll nodes c ∧
      (processNodesConst nodes c tmap).2.1 = constPortsNodesAll nodes c ∧
      (processNodesConst nodes c tmap).2.2.1 = c + nodesConstSum nodes := by
  intro nodes
  induction nodes with
  | nil =>
    intro c tmap _
    exact ⟨rfl, rfl, by simp [processNodesConst, nodesConstSum]⟩
  | cons n rest ih =>
    intro c tmap hov
    have hncs : nodesConstSum (n :: rest)
        = portConstSum EDirection.INPUT n.ports + nodesConstSum rest := rfl
    obtain ⟨hp1, hp2, hp3⟩ := processConstPortList_eq EDirection.INPUT n.ports c
      tmap (by omega)
    obtain ⟨ih1, ih2, ih3⟩ := ih (c + portConstSum EDirection.INPUT n.ports)
      (processConstPortList EDirection.INPUT n.ports c tmap).2.2.2 (by omega)
    constructor
    · simp only [processNodesConst, rewriteNodesAll, hp1]
      rw [hp3, ih1]
    constructor
    · simp only [processNodesConst, constPortsNodesAll, hp2]
      rw [hp3, ih2]
    · simp only [processNodesConst, nodesConstSum]
      rw [hp3, ih3]
      omega

/-- Full characterization of `Parser::replaceConstBits` when the 64-bit
counter does not overflow: boundary ports are rewritten in place at the
rolling counter seeded with the module's maximum numeric token; the created
CONST ports (boundary-derived first, then node-derived) are appended to the
boundary pool; node ports are rewritten with the counter continuing after the
boundary pool. -/
theorem replaceConstBits_eq (m : Module) (tmap : TransMap)
    (hov : m.getMaxBitNumber + portConstSum EDirection.OUTPUT m.ports
        + nodesConstSum m.nodes < u64Mod) :
    (replaceConstBits m tmap).1
      = { m with
          ports := rewritePortsAll EDirection.OUTPUT m.ports m.getMaxBitNumber
            ++ (constPortsAll EDirection.OUTPUT m.ports m.getMaxBitNumber
              ++ constPortsNodesAll m.nodes
                  (m.getMaxBitNumber + portConstSum EDirection.OUTPUT m.ports)),
          nodes := rewriteNodesAll m.nodes
            (m.getMaxBitNumber + portConstSum EDirection.OUTPUT m.ports) } := by
  obtain ⟨hb1, hb2, hb3⟩ :=
    processConstPortList_eq EDirection.OUTPUT m.ports m.getMaxBitNumber tmap
      (by omega)
  obtain ⟨hn1, hn2, hn3⟩ := processNodesConst_eq m.nodes
    (processConstPortList EDirection.OUTPUT m.ports m.getMaxBitNumber tmap).2.2.1
    (processConstPortList EDirection.OUTPUT m.ports m.getMaxBitNumber tmap).2.2.2
    (by rw [hb3]; omega)
  unfold replaceConstBits
  simp only [hb1, hb2, hn1, hn2]
  rw [hb3, List.append_assoc]

theorem rewritePortsAll_length (dir : EDirection) :
    ∀ (ports : List Port) (c : Nat),
      (rewritePortsAll dir ports c).length = ports.length := by
  intro ports
  induction ports with
  | nil => intro c; rfl
  | cons p rest ih =>
    intro c
    by_cases hq : p.direction = dir ∧ p.hasConstantBits = true
    · simp [rewritePortsAll, if_pos hq, ih]
    · simp [rewritePortsAll, if_neg hq, ih]

theorem rewritePortsAll_getD (dir : EDirection) :
    ∀ (ports : List Port) (c : Nat) (i : Nat), i < ports.length →
      (rewritePortsAll dir ports c).getD i default
        = (if (ports.getD i default).direction = dir ∧
              (ports.getD i default).hasConstantBits = true then
            { ports.getD i default with
              bits := (rewriteBitsRef (ports.getD i default).bits
                (c + portConstSum dir (ports.take i))).1 }
          else ports.getD i default) := by
  intro ports
  induction ports with
  | nil => intro c i hi; simp at hi
  | cons p rest ih =>
    intro c i hi
    match i with
    | 0 =>
      by_cases hq : p.direction = dir ∧ p.hasConstantBits = true
      · simp [rewritePortsAll, if_pos hq, portConstSum]
      · simp [rewritePortsAll, if_neg hq, hq]
    | Nat.succ j =>
      have hj : j < rest.length := by simpa using hi
      by_cases hq : p.direction = dir ∧ p.hasConstantBits = true
      · simp only [rewritePortsAll, if_pos hq, List.getD_cons_succ, List.take_succ_cons]
        rw [ih (c + constCount p.bits) j hj]
        by_cases hq2 : (rest.getD j default).direction = dir ∧
            (rest.getD j default).hasConstantBits = true
        · rw [if_pos hq2, if_pos hq2]
          have harith : c + constCount p.bits + portConstSum dir (rest.take j)
              = c + portConstSum dir (p :: rest.take j) := by
            simp only [portConstSum, if_pos hq]
            omega
          rw [harith]
        · rw [if_neg hq2, if_neg hq2]
      · simp only [rewritePortsAll, if_neg hq, List.getD_cons_succ, List.take_succ_cons]
        rw [ih c j hj]
        by_cases hq2 : (rest.getD j default).direction = dir ∧
            (rest.getD j default).hasConstantBits = true
        · rw [if_pos hq2, if_pos hq2]
          have harith : c + portConstSum dir (rest.take j)
              = c + portConstSum dir (p :: rest.take j) := by
            simp only [portConstSum, if_neg hq]
            omega
          rw [harith]
        · rw [if_neg hq2, if_neg hq2]

theorem rewriteNodesAll_getD :
    ∀ (nodes : List Node) (c : Nat) (ni : Nat), ni < nodes.length →
      (rewriteNodesAll nodes c).getD ni default
        = { nodes.getD ni default with
            ports := rewritePortsAll EDirection.INPUT (nodes.getD ni default).ports
              (c + nodesConstSum (nodes.take ni)) } := by
  intro nodes
  induction nodes with
  | nil => intro c ni hi; simp at hi
  | cons n rest ih =>
    intro c ni hi
    match ni with
    | 0 => simp [rewriteNodesAll, nodesConstSum]
    | Nat.succ j =>
      have hj : j < rest.length := by simpa using hi
      simp only [rewriteNodesAll, List.getD_cons_succ, List.take_succ_cons]
      rw [ih (c + portConstSum EDirection.INPUT n.ports) j hj]
      have harith : c + portConstSum EDirection.INPUT n.ports
            + nodesConstSum (rest.take j)
          = c + nodesConstSum (n :: rest.take j) := by
        simp only [nodesConstSum]
        omega
      rw [harith]

theorem freshTokens_append (base a b : Nat) :
    freshTokens base (a + b) = freshTokens base a ++ freshTokens (base + a) b := by
  unfold freshTokens
  rw [List.range_add, List.map_append, List.map_map]
  congr 1
  apply List.map_congr_left
  intro i _
  simp only [Function.comp_apply]
  congr 1
  omega

theorem createConstantPort_bits (name : String) (bits cv : List String) :
    (createConstantPort name bits cv).bits = bits := rfl

theorem constPortsRef_tokens (name : String) :
    ∀ (runs : List ((Nat × Nat) × List String)) (c : Nat),
      (∀ r ∈ runs, ∀ b ∈ r.2, isConstBit b = isConstBit (r.2.headD "")) →
      (((constPortsRef name runs c).map (fun p => p.bits)).flatten
        = freshTokens c (constCount ((runs.map (fun r => r.2)).flatten))) := by
  intro runs
  induction runs with
  | nil => intro c _; simp [constPortsRef, freshTokens, constCount]
  | cons run rest ih =>
    obtain ⟨⟨s, e⟩, r⟩ := run
    intro c hhom
    have hr := hhom ((s, e), r) (by simp)
    by_cases hc : isConstBit (r.headD "") = true
    · have hall : ∀ b ∈ r, isConstBit b = true := fun b hb => (hr b hb).trans hc
      have hcount : constCount ((((s,e),r) :: rest).map (fun r => r.2)).flatten
          = r.length + constCount ((rest.map (fun r => r.2)).flatten) := by
        simp only [List.map_cons, List.flatten_cons, constCount, List.countP_append]
        rw [List.countP_eq_length.mpr hall]
      rw [hcount, freshTokens_append]
      simp only [constPortsRef, if_pos hc, List.map_append, List.flatten_append,
        List.map_cons, List.flatten_cons]
      rw [ih (c + r.length) (fun x hx => hhom x (by simp [hx]))]
      simp [createConstantPort_bits, freshTokens]
    · have hcf : isConstBit (r.headD "") = false := by
        cases hx : isConstBit (r.headD "")
        · rfl
        · exact absurd hx hc
      have hall : ∀ b ∈ r, isConstBit b = false := fun b hb => (hr b hb).trans hcf
      have hcount : constCount ((((s,e),r) :: rest).map (fun r => r.2)).flatten
          = constCount ((rest.map (fun r => r.2)).flatten) := by
        simp only [List.map_cons, List.flatten_cons, constCount, List.countP_append]
        rw [List.countP_eq_zero.mpr (by intro a ha; simp [hall a ha])]
        omega
      rw [hcount]
      simp only [constPortsRef, if_neg hc]
      exact ih c (fun x hx => hhom x (by simp [hx]))

theorem constPortsAll_tokens (dir : EDirection) :
    ∀ (ports : List Port) (c : Nat),
      ((constPortsAll dir ports c).map (fun p => p.bits)).flatten
        = freshTokens c (portConstSum dir ports) := by
  intro ports
  induction ports with
  | nil => intro c; simp [constPortsAll, portConstSum, freshTokens]
  | cons p rest ih =>
    intro c
    by_cases hq : p.direction = dir ∧ p.hasConstantBits = true
    · have hhom : ∀ r ∈ splitBits p.bits, ∀ b ∈ r.2,
          isConstBit b = isConstBit (r.2.headD "") := by
        intro r hr
        exact ((runsFrom_facts (splitBits_runs p.bits)).1 r hr).2
      have htok := constPortsRef_tokens p.name (splitBits p.bits) c hhom
      rw [splitBits_join p.bits] at htok
      simp only [constPortsAll, if_pos hq, portConstSum, if_pos hq,
        List.map_append, List.flatten_append]
      rw [htok, ih (c + constCount p.bits), freshTokens_append]
    · simp only [constPortsAll, if_neg hq, portConstSum, if_neg hq]
      rw [ih c]
      congr 1
      omega

theorem constPortsNodesAll_tokens :
    ∀ (nodes : List Node) (c : Nat),
      ((constPortsNodesAll nodes c).map (fun p => p.bits)).flatten
        = freshTokens c (nodesConstSum nodes) := by
  intro nodes
  induction nodes with
  | nil => intro c; simp [constPortsNodesAll, nodesConstSum, freshTokens]
  | cons n rest ih =>
    intro c
    simp only [constPortsNodesAll, nodesConstSum, List.map_append, List.flatten_append]
    rw [constPortsAll_tokens, ih, freshTokens_append]

theorem freshTokens_nodup (base count : Nat) : (freshTokens base count).Nodup := by
  unfold freshTokens
  apply List.Nodup.map
  · intro a b h
    have := natToDecStr_injective h
    omega
  · exact List.nodup_range count

theorem portMax_foldl_mono (l : List String) :
    ∀ acc : Nat, acc ≤ l.foldl
      (fun m b => if b = "x" ∨ b = "0" ∨ b = "1" then m else max m (qtToULong b)) acc := by
  induction l with
  | nil => intro acc; exact Nat.le_refl acc
  | cons b t ih =>
    intro acc
    rw [List.foldl_cons]
    refine Nat.le_trans ?_ (ih _)
    split
    · exact Nat.le_refl acc
    · exact Nat.le_max_left acc _

theorem portMax_foldl_mem (l : List String) :
    ∀ (acc : Nat) (b : String), b ∈ l → ¬(b = "x" ∨ b = "0" ∨ b = "1") →
      qtToULong b ≤ l.foldl
        (fun m x => if x = "x" ∨ x = "0" ∨ x = "1" then m else max m (qtToULong x)) acc := by
  induction l with
  | nil => intro acc b hb; simp at hb
  | cons x t ih =>
    intro acc b hb hcond
    rcases List.mem_cons.mp hb with hb | hb
    · subst hb
      rw [List.foldl_cons, if_neg hcond]
      exact Nat.le_trans (Nat.le_max_right acc _) (portMax_foldl_mono t _)
    · rw [List.foldl_cons]
      exact ih _ b hb hcond

theorem portsMax_foldl_mono (ports : List Port) :
    ∀ acc : Nat, acc ≤ ports.foldl (fun a p => max a p.getMaxBitNumber) acc := by
  induction ports with
  | nil => intro acc; exact Nat.le_refl acc
  | cons p t ih =>
    intro acc
    rw [List.foldl_cons]
    exact Nat.le_trans (Nat.le_max_left acc _) (ih _)

theorem portsMax_foldl_mem (ports : List Port) :
    ∀ (acc : Nat) (p : Port), p ∈ ports →
      p.getMaxBitNumber ≤ ports.foldl (fun a q => max a q.getMaxBitNumber) acc := by
  induction ports with
  | nil => intro acc p hp; simp at hp
  | cons q t ih =>
    intro acc p hp
    rcases List.mem_cons.mp hp with hp | hp
    · subst hp
      rw [List.foldl_cons]
      exact Nat.le_trans (Nat.le_max_right acc _) (portsMax_foldl_mono t _)
    · rw [List.foldl_cons]
      exact ih _ p hp

theorem nodesMax_foldl_mono (nodes : List Node) :
    ∀ acc : Nat, acc ≤ nodes.foldl
      (fun acc n => n.ports.foldl (fun a p => max a p.getMaxBitNumber) acc) acc := by
  induction nodes with
  | nil => intro acc; exact Nat.le_refl acc
  | cons n t ih =>
    intro acc
    rw [List.foldl_cons]
    exact Nat.le_trans (portsMax_foldl_mono n.ports acc) (ih _)

theorem nodesMax_foldl_mem (nodes : List Node) :
    ∀ (acc : Nat) (n : Node) (p : Port), n ∈ nodes → p ∈ n.ports →
      p.getMaxBitNumber ≤ nodes.foldl
        (fun acc n => n.ports.foldl (fun a p => max a p.getMaxBitNumber) acc) acc := by
  induction nodes with
  | nil => intro acc n p hn; simp at hn
  | cons m t ih =>
    intro acc n p hn hp
    rcases List.mem_cons.mp hn with hn | hn
    · subst hn
      rw [List.foldl_cons]
      exact Nat.le_trans (portsMax_foldl_mem n.ports acc p hp) (nodesMax_foldl_mono t _)
    · rw [List.foldl_cons]
      exact ih _ n p hn hp

/-- Every net-token bit anywhere in the module has numeric value at most the
module's maximum bit number. -/
theorem qtToULong_le_getMaxBitNumber (m : Module) (b : String)
    (hb : b ∈ allModuleBits m) (hcond : ¬(b = "x" ∨ b = "0" ∨ b = "1")) :
    qtToULong b ≤ m.getMaxBitNumber := by
  unfold allModuleBits at hb
  unfold Module.getMaxBitNumber
  rcases List.mem_append.mp hb with hb | hb
  · obtain ⟨l, hl, hbl⟩ := List.mem_flatten.mp hb
    obtain ⟨p, hp, rfl⟩ := List.mem_map.mp hl
    have h1 : qtToULong b ≤ p.getMaxBitNumber :=
      portMax_foldl_mem p.bits 0 b hbl hcond
    have h2 := portsMax_foldl_mem m.ports 0 p hp
    have h3 := nodesMax_foldl_mono m.nodes
      (m.ports.foldl (fun a p => max a p.getMaxBitNumber) 0)
    exact Nat.le_trans h1 (Nat.le_trans h2 h3)
  · obtain ⟨l, hl, hbl⟩ := List.mem_flatten.mp hb
    obtain ⟨n, hn, rfl⟩ := List.mem_map.mp hl
    obtain ⟨l2, hl2, hbl2⟩ := List.mem_flatten.mp hbl
    obtain ⟨p, hp, rfl⟩ := List.mem_map.mp hl2
    have h1 : qtToULong b ≤ p.getMaxBitNumber :=
      portMax_foldl_mem p.bits 0 b hbl2 hcond
    have h2 := nodesMax_foldl_mem m.nodes
      (m.ports.foldl (fun a p => max a p.getMaxBitNumber) 0) n p hn hp
    exact Nat.le_trans h1 h2

theorem constPortsRef_mem (name : String) :
    ∀ (runs : List ((Nat × Nat) × List String)) (c : Nat) (se : Nat × Nat)
      (r : List String),
      (se, r) ∈ runs → isConstBit (r.headD "") = true →
      ∃ base, c ≤ base ∧
        createConstantPort (name ++ "_const") (freshTokens base r.length) r
          ∈ constPortsRef name runs c := by
  intro runs
  induction runs with
  | nil => intro c se r hmem; simp at hmem
  | cons run rest ih =>
    obtain ⟨⟨s0, e0⟩, r0⟩ := run
    intro c se r hmem hconst
    rcases List.mem_cons.mp hmem with hmem | hmem
    · have hr : r0 = r := by
        have := congrArg Prod.snd hmem.symm
        simpa using this
      subst hr
      refine ⟨c, Nat.le_refl c, ?_⟩
      rw [constPortsRef, if_pos hconst]
      exact List.mem_cons_self _ _
    · by_cases hc0 : isConstBit (r0.headD "") = true
      · obtain ⟨base, hbase, hin⟩ := ih (c + r0.length) se r hmem hconst
        refine ⟨base, by omega, ?_⟩
        rw [constPortsRef, if_pos hc0]
        exact List.mem_cons_of_mem _ hin
      · obtain ⟨base, hbase, hin⟩ := ih c se r hmem hconst
        refine ⟨base, hbase, ?_⟩
        rw [constPortsRef, if_neg hc0]
        exact hin

theorem constPortsAll_mem (dir : EDirection) :
    ∀ (ports : List Port) (c : Nat) (p : Port),
      p ∈ ports → p.direction = dir ∧ p.hasConstantBits = true →
      ∀ (se : Nat × Nat) (r : List String),
        (se, r) ∈ splitBits p.bits → isConstBit (r.headD "") = true →
        ∃ base, c ≤ base ∧
          createConstantPort (p.name ++ "_const") (freshTokens base r.length) r
            ∈ constPortsAll dir ports c := by
  intro ports
  induction ports with
  | nil => intro c p hp; simp at hp
  | cons q rest ih =>
    intro c p hp hq se r hrun hconst
    rcases List.mem_cons.mp hp with hp | hp
    · subst hp
      obtain ⟨base, hbase, hin⟩ := constPortsRef_mem p.name (splitBits p.bits) c se r
        hrun hconst
      refine ⟨base, hbase, ?_⟩
      rw [constPortsAll, if_pos hq]
      exact List.mem_append_left _ hin
    · by_cases hq0 : q.direction = dir ∧ q.hasConstantBits = true
      · obtain ⟨base, hbase, hin⟩ := ih (c + constCount q.bits) p hp hq se r hrun hconst
        refine ⟨base, by omega, ?_⟩
        rw [constPortsAll, if_pos hq0]
        exact List.mem_append_right _ hin
      · obtain ⟨base, hbase, hin⟩ := ih c p hp hq se r hrun hconst
        refine ⟨base, hbase, ?_⟩
        rw [constPortsAll, if_neg hq0]
        exact hin

theorem constPortsNodesAll_mem :
    ∀ (nodes : List Node) (c : Nat) (n : Node) (p : Port),
      n ∈ nodes → p ∈ n.ports →
      p.direction = EDirection.INPUT ∧ p.hasConstantBits = true →
      ∀ (se : Nat × Nat) (r : List String),
        (se, r) ∈ splitBits p.bits → isConstBit (r.headD "") = true →
        ∃ base, c ≤ base ∧
          createConstantPort (p.name ++ "_const") (freshTokens base r.length) r
            ∈ constPortsNodesAll nodes c := by
  intro nodes
  induction nodes with
  | nil => intro c n p hn; simp at hn
  | cons m0 rest ih =>
    intro c n p hn hp hq se r hrun hconst
    rcases List.mem_cons.mp hn with hn | hn
    · subst hn
      obtain ⟨base, hbase, hin⟩ := constPortsAll_mem EDirection.INPUT n.ports c p hp hq
        se r hrun hconst
      refine ⟨base, hbase, ?_⟩
      rw [constPortsNodesAll]
      exact List.mem_append_left _ hin
    · obtain ⟨base, hbase, hin⟩ :=
        ih (c + portConstSum EDirection.INPUT m0.ports) n p hn hp hq se r hrun hconst
      refine ⟨base, by omega, ?_⟩
      rw [constPortsNodesAll]
      exact List.mem_append_right _ hin

theorem rewriteNodesAll_length :
    ∀ (nodes : List Node) (c : Nat), (rewriteNodesAll nodes c).length = nodes.length := by
  intro nodes
  induction nodes with
  | nil => intro c; rfl
  | cons n rest ih => intro c; simp [rewriteNodesAll, ih]

theorem constCount_take_lt :
    ∀ (j : Nat) (bits : List String), j < bits.length →
      isConstBit (bits.getD j "") = true →
      constCount (bits.take j) < constCount bits := by
  intro j
  induction j with
  | zero =>
    intro bits hj hc
    cases bits with
    | nil => simp at hj
    | cons b t =>
      simp only [List.getD_cons_zero] at hc
      simp only [List.take_zero]
      unfold constCount
      rw [List.countP_cons_of_pos _ _ hc]
      simp only [List.countP_nil]
      omega
  | succ j ih =>
    intro bits hj hc
    cases bits with
    | nil => simp at hj
    | cons b t =>
      simp only [List.getD_cons_succ] at hc
      have ht := ih t (by simpa using hj) hc
      simp only [List.take_succ_cons]
      unfold constCount at ht ⊢
      by_cases hb : isConstBit b = true
      · rw [List.countP_cons_of_pos _ _ hb, List.countP_cons_of_pos _ _ hb]
        omega
      · rw [List.countP_cons_of_neg _ _ hb, List.countP_cons_of_neg _ _ hb]
        omega

theorem portConstSum_take_le_of_qual (dir : EDirection) :
    ∀ (ports : List Port) (i : Nat), i < ports.length →
      ((ports.getD i default).direction = dir ∧
        (ports.getD i default).hasConstantBits = true) →
      portConstSum dir (ports.take i) + constCount (ports.getD i default).bits
        ≤ portConstSum dir ports := by
  intro ports
  induction ports with
  | nil => intro i hi; simp at hi
  | cons p rest ih =>
    intro i hi hq
    match i with
    | 0 =>
      simp only [List.take_zero, List.getD_cons_zero] at hq ⊢
      simp only [portConstSum]
      rw [if_pos hq]
      omega
    | i + 1 =>
      simp only [List.getD_cons_succ] at hq
      have ht := ih i (by simpa using hi) hq
      simp only [List.take_succ_cons, List.getD_cons_succ, portConstSum]
      omega

theorem nodesConstSum_take_le :
    ∀ (nodes : List Node) (ni : Nat), ni < nodes.length →
      nodesConstSum (nodes.take ni)
          + portConstSum EDirection.INPUT (nodes.getD ni default).ports
        ≤ nodesConstSum nodes := by
  intro nodes
  induction nodes with
  | nil => intro ni hni; simp at hni
  | cons n rest ih =>
    intro ni hni
    match ni with
    | 0 =>
      simp only [List.take_zero, List.getD_cons_zero]
      simp only [nodesConstSum]
      omega
    | ni + 1 =>
      have ht := ih ni (by simpa using hni)
      simp only [List.take_succ_cons, List.getD_cons_succ, nodesConstSum]
      omega

theorem rewriteBitsRef_materializeOk (m : Module) (bits : List String) (c : Nat)
    (hc : m.getMaxBitNumber ≤ c) (hub : c + constCount bits < u64Mod) :
    constMaterializeOkBits m c bits (rewriteBitsRef bits c).1 := by
  refine ⟨rewriteBitsRef_length bits c, ?_⟩
  intro j hj
  constructor
  · intro hconst
    have htake := constCount_take_lt j bits hj hconst
    rw [rewriteBitsRef_getD bits c j hj, if_pos hconst]
    refine ⟨rfl, ?_⟩
    intro b hb hcond
    exact ne_natToDecStr_of_qtToULong_le
      (qtToULong_le_getMaxBitNumber m b hb hcond) (by omega) (by omega)
  · intro hconst
    rw [rewriteBitsRef_getD bits c j hj, hconst, if_neg Bool.false_ne_true]

/-- **C3** — counterexample to the literal claim.  In `c3Module` the highest
numeric net-token is 0, so the counter is seeded at 0 and the single constant
bit "1" of OUTPUT port `b` is materialized into the token `natToDecStr 1 =
"1"` — which is NOT module-unique: it already occurs, untouched, as the bit of
the unprocessed INPUT port `a` (and also as the created CONST port's own bit).
The claim that every previously-constant position "now holds a fresh net-token
that occurs nowhere else in the module" is therefore false. -/
theorem claim3_counterexample :
    ((c3Module.ports.getD 0 default).direction = EDirection.OUTPUT ∧
      isConstBit ((c3Module.ports.getD 0 default).bits.getD 0 "") = true) ∧
    c3Module.getMaxBitNumber = 0 ∧
    ((replaceConstBits c3Module ([] : TransMap)).1.ports.getD 0 default).bits.getD 0 ""
      = "1" ∧
    (replaceConstBits c3Module ([] : TransMap)).1.ports.getD 1 default
      = Port.mk "a" EDirection.INPUT ["1"] 0 := by
  decide

/-- **C3** (amended).  For every module and translation table such that the
64-bit counter does not overflow (the seed `getMaxBitNumber` plus the total
constant-bit count stays below `2^64`; the counter is an `unsigned long long`
that would otherwise wrap), after `replaceConstBits` with the counter seeded
at the module's highest numeric net-token: (1) each boundary OUTPUT port with
a constant bit keeps its name, direction and bit-count, every
previously-constant position holds the decimal token of the monotone counter
(seeded one past `getMaxBitNumber`, advanced by the constant bits of earlier
qualifying ports and earlier positions), and that token differs from every
ORIGINAL net-token bit of the module (freshness is relative to
pre-materialization net-tokens — it may coincide with constant literals
"0"/"1", as the counterexample shows); non-qualifying boundary ports are
unchanged; (2) the same holds for node INPUT ports, with the counter advanced
past all boundary constants and earlier nodes; (3) for every constant run of
a qualifying port a CONST port named `<name>_const` carrying exactly the
allocated token block is added to the boundary pool; (4) the bits of the
appended boundary ports are exactly the counter's consecutive fresh-token
block and contain no duplicates; (5) paths, netnames and node count are
untouched. -/
theorem claim3_amended (m : Module) (tmap : TransMap)
    (hov : m.getMaxBitNumber
        + (portConstSum EDirection.OUTPUT m.ports + nodesConstSum m.nodes)
      < u64Mod) :
    (∀ i, i < m.ports.length →
      (((m.ports.getD i default).direction = EDirection.OUTPUT ∧
          (m.ports.getD i default).hasConstantBits = true) →
        ((replaceConstBits m tmap).1.ports.getD i default).name
            = (m.ports.getD i default).name ∧
        ((replaceConstBits m tmap).1.ports.getD i default).direction
            = (m.ports.getD i default).direction ∧
        constMaterializeOkBits m
          (m.getMaxBitNumber + portConstSum EDirection.OUTPUT (m.ports.take i))
          (m.ports.getD i default).bits
          ((replaceConstBits m tmap).1.ports.getD i default).bits) ∧
      (¬((m.ports.getD i default).direction = EDirection.OUTPUT ∧
          (m.ports.getD i default).hasConstantBits = true) →
        (replaceConstBits m tmap).1.ports.getD i default = m.ports.getD i default)) ∧
    ((replaceConstBits m tmap).1.nodes.length = m.nodes.length ∧
     ∀ ni, ni < m.nodes.length →
      ((replaceConstBits m tmap).1.nodes.getD ni default).name
          = (m.nodes.getD ni default).name ∧
      ((replaceConstBits m tmap).1.nodes.getD ni default).type
          = (m.nodes.getD ni default).type ∧
      ((replaceConstBits m tmap).1.nodes.getD ni default).ports.length
          = (m.nodes.getD ni default).ports.length ∧
      ∀ i, i < (m.nodes.getD ni default).ports.length →
        ((((m.nodes.getD ni default).ports.getD i default).direction
              = EDirection.INPUT ∧
            ((m.nodes.getD ni default).ports.getD i default).hasConstantBits
              = true) →
          (((replaceConstBits m tmap).1.nodes.getD ni default).ports.getD i
              default).name
            = ((m.nodes.getD ni default).ports.getD i default).name ∧
          constMaterializeOkBits m
            (m.getMaxBitNumber + portConstSum EDirection.OUTPUT m.ports
              + nodesConstSum (m.nodes.take ni)
              + portConstSum EDirection.INPUT
                  ((m.nodes.getD ni default).ports.take i))
            ((m.nodes.getD ni default).ports.getD i default).bits
            (((replaceConstBits m tmap).1.nodes.getD ni default).ports.getD i
              default).bits) ∧
        (¬(((m.nodes.getD ni default).ports.getD i default).direction
              = EDirection.INPUT ∧
            ((m.nodes.getD ni default).ports.getD i default).hasConstantBits
              = true) →
          ((replaceConstBits m tmap).1.nodes.getD ni default).ports.getD i default
            = (m.nodes.getD ni default).ports.getD i default)) ∧
    (∀ p ∈ m.ports, p.direction = EDirection.OUTPUT ∧ p.hasConstantBits = true →
      ∀ (se : Nat × Nat) (r : List String),
        (se, r) ∈ splitBits p.bits → isConstBit (r.headD "") = true →
        ∃ base, m.getMaxBitNumber ≤ base ∧
          createConstantPort (p.name ++ "_const") (freshTokens base r.length) r
            ∈ (replaceConstBits m tmap).1.ports) ∧
    (∀ n ∈ m.nodes, ∀ p ∈ n.ports,
        p.direction = EDirection.INPUT ∧ p.hasConstantBits = true →
      ∀ (se : Nat × Nat) (r : List String),
        (se, r) ∈ splitBits p.bits → isConstBit (r.headD "") = true →
        ∃ base, m.getMaxBitNumber ≤ base ∧
          createConstantPort (p.name ++ "_const") (freshTokens base r.length) r
            ∈ (replaceConstBits m tmap).1.ports) ∧
    ((((replaceConstBits m tmap).1.ports.drop m.ports.length).map
        (fun p => p.bits)).flatten
      = freshTokens m.getMaxBitNumber
          (portConstSum EDirection.OUTPUT m.ports + nodesConstSum m.nodes)) ∧
    (freshTokens m.getMaxBitNumber
        (portConstSum EDirection.OUTPUT m.ports + nodesConstSum m.nodes)).Nodup ∧
    (replaceConstBits m tmap).1.paths = m.paths ∧
    (replaceConstBits m tmap).1.netnames = m.netnames := by
  have hm := replaceConstBits_eq m tmap (by omega)
  have hports : (replaceConstBits m tmap).1.ports
      = rewritePortsAll EDirection.OUTPUT m.ports m.getMaxBitNumber
        ++ (constPortsAll EDirection.OUTPUT m.ports m.getMaxBitNumber
          ++ constPortsNodesAll m.nodes
              (m.getMaxBitNumber + portConstSum EDirection.OUTPUT m.ports)) := by
    rw [hm]
  have hnodes : (replaceConstBits m tmap).1.nodes
      = rewriteNodesAll m.nodes
          (m.getMaxBitNumber + portConstSum EDirection.OUTPUT m.ports) := by
    rw [hm]
  refine ⟨?_, ⟨?_, ?_⟩, ?_, ?_, ?_, ?_, ?_, ?_⟩
  · intro i hi
    have hi' : i < (rewritePortsAll EDirection.OUTPUT m.ports
        m.getMaxBitNumber).length := by
      rw [rewritePortsAll_length]; exact hi
    have hgd : (replaceConstBits m tmap).1.ports.getD i default
        = (rewritePortsAll EDirection.OUTPUT m.ports m.getMaxBitNumber).getD i
            default := by
      rw [hports]; exact List.getD_append _ _ _ _ hi'
    constructor
    · intro hq
      rw [hgd, rewritePortsAll_getD _ _ _ i hi, if_pos hq]
      have htk := portConstSum_take_le_of_qual EDirection.OUTPUT m.ports i hi hq
      exact ⟨rfl, rfl, rewriteBitsRef_materializeOk m _ _ (by omega) (by omega)⟩
    · intro hq
      rw [hgd, rewritePortsAll_getD _ _ _ i hi, if_neg hq]
  · rw [hnodes]; exact rewriteNodesAll_length m.nodes _
  · intro ni hni
    have hnd : (replaceConstBits m tmap).1.nodes.getD ni default
        = { m.nodes.getD ni default with
            ports := rewritePortsAll EDirection.INPUT
              (m.nodes.getD ni default).ports
              (m.getMaxBitNumber + portConstSum EDirection.OUTPUT m.ports
                + nodesConstSum (m.nodes.take ni)) } := by
      rw [hnodes, rewriteNodesAll_getD m.nodes _ ni hni]
    refine ⟨by rw [hnd], by rw [hnd], ?_, ?_⟩
    · rw [hnd]; exact rewritePortsAll_length _ _ _
    · intro i hi
      have hpd : ((replaceConstBits m tmap).1.nodes.getD ni default).ports.getD i
            default
          = (rewritePortsAll EDirection.INPUT (m.nodes.getD ni default).ports
              (m.getMaxBitNumber + portConstSum EDirection.OUTPUT m.ports
                + nodesConstSum (m.nodes.take ni))).getD i default := by
        rw [hnd]
      constructor
      · intro hq
        rw [hpd, rewritePortsAll_getD _ _ _ i hi, if_pos hq]
        have htk := portConstSum_take_le_of_qual EDirection.INPUT
          (m.nodes.getD ni default).ports i hi hq
        have htn := nodesConstSum_take_le m.nodes ni hni
        exact ⟨rfl, rewriteBitsRef_materializeOk m _ _ (by omega) (by omega)⟩
      · intro hq
        rw [hpd, rewritePortsAll_getD _ _ _ i hi, if_neg hq]
  · intro p hp hq se r hrun hconst
    obtain ⟨base, hbase, hin⟩ := constPortsAll_mem EDirection.OUTPUT m.ports
      m.getMaxBitNumber p hp hq se r hrun hconst
    refine ⟨base, hbase, ?_⟩
    rw [hports]
    exact List.mem_append_right _ (List.mem_append_left _ hin)
  · intro n hn p hp hq se r hrun hconst
    obtain ⟨base, hbase, hin⟩ := constPortsNodesAll_mem m.nodes
      (m.getMaxBitNumber + portConstSum EDirection.OUTPUT m.ports) n p hn hp hq
      se r hrun hconst
    refine ⟨base, by omega, ?_⟩
    rw [hports]
    exact List.mem_append_right _ (List.mem_append_right _ hin)
  · have hl := rewritePortsAll_length EDirection.OUTPUT m.ports m.getMaxBitNumber
    have hdrop : (replaceConstBits m tmap).1.ports.drop m.ports.length
        = constPortsAll EDirection.OUTPUT m.ports m.getMaxBitNumber
          ++ constPortsNodesAll m.nodes
              (m.getMaxBitNumber + portConstSum EDirection.OUTPUT m.ports) := by
      rw [hports, ← hl, List.drop_left]
    rw [hdrop, List.map_append, List.flatten_append, constPortsAll_tokens,
      constPortsNodesAll_tokens]
    exact (freshTokens_append _ _ _).symm
  · exact freshTokens_nodup _ _
  · rw [hm]
  · rw [hm]

/-- Witness for the amended C3 at the concrete module `c3Module`: the 64-bit
counter does not overflow there, its single boundary OUTPUT port has a
constant bit at position 0, and the amended theorem yields the concrete
materialized token `natToDecStr 1`. -/
theorem claim3_amended_witness :
    c3Module.getMaxBitNumber
        + (portConstSum EDirection.OUTPUT c3Module.ports
          + nodesConstSum c3Module.nodes) < u64Mod ∧
    (0 : Nat) < c3Module.ports.length ∧
    (c3Module.ports.getD 0 default).direction = EDirection.OUTPUT ∧
    (c3Module.ports.getD 0 default).hasConstantBits = true ∧
    (0 : Nat) < (c3Module.ports.getD 0 default).bits.length ∧
    isConstBit ((c3Module.ports.getD 0 default).bits.getD 0 "") = true ∧
    ((replaceConstBits c3Module ([] : TransMap)).1.ports.getD 0 default).bits.getD 0 ""
      = natToDecStr 1 := by
  refine ⟨by decide, by decide, by decide, by decide, by decide, by decide, ?_⟩
  have h := ((claim3_amended c3Module ([] : TransMap) (by decide)).1 0
    (by decide)).1 ⟨by decide, by decide⟩
  have h2 := (h.2.2.2 0 (by decide)).1 (by decide)
  rw [h2.1]
  decide
